import Mathlib

/-!
Verification development for the `courseadvancedpl` teaching corpus.

This file gives a shallow embedding, in Lean 4, of the repository's
components that the specification's claims talk about:

* `src/scheduler.cpp` — the weekly shift scheduler (`schedule_employees`
  and its helpers);
* `src/Familytree.pl` — the Prolog kinship engine and the functional
  OCaml statistics calculator (`stats.ml`) that shares that source file;
* `src/unnamed/part_000` — the array-based C statistics calculator;
* `src/ride_share.cpp` — the polymorphic ride-fare simulation.

Modelling conventions:

* C++ `int` values are modelled as `Int`.  Arithmetic is exact except
  where a 32-bit overflow is actually reachable from inputs a claim
  quantifies over, in which case the wrap-around is modelled explicitly
  (see `wrap32` and `median_sorted`).
* C++ `std::string` is modelled as `String`; `unordered_map`s keyed by
  day/shift names are modelled as total functions with the map's
  default value at absent keys, which matches `operator[]`'s
  default-construction semantics.
* Fallible code is modelled with `Except`/`Option`.
* All definitions are executable.
-/

namespace CoursePL

/-! ## Shared character/string utilities (scheduler.cpp lines 39-60)

`isspace`/`tolower` in the C locale, over the ASCII range that the
repository's data actually uses. -/

/-- C-locale `isspace`: space, `\t`, `\n`, `\v`, `\f`, `\r`. -/
def isSpaceC (c : Char) : Bool :=
  c = ' ' || c = '\t' || c = '\n' || c = Char.ofNat 11 || c = Char.ofNat 12 || c = '\r'

/-- `ltrim` from scheduler.cpp: drop leading whitespace. -/
def ltrim (s : List Char) : List Char := s.dropWhile isSpaceC

/-- `rtrim` from scheduler.cpp: drop trailing whitespace. -/
def rtrim (s : List Char) : List Char := (s.reverse.dropWhile isSpaceC).reverse

/-- `trim` from scheduler.cpp: `rtrim (ltrim s)`. -/
def trim (s : String) : String := ⟨rtrim (ltrim s.data)⟩

/-- C-locale `tolower` on one character (ASCII). -/
def toLowerC (c : Char) : Char :=
  if 'A' ≤ c && c ≤ 'Z' then Char.ofNat (c.toNat + 32) else c

/-- `to_lower` from scheduler.cpp: lowercase every character. -/
def toLowerStr (s : String) : String := ⟨s.data.map toLowerC⟩

/-- `std::to_string` on an `int` value: decimal, `-` sign for negatives. -/
def intStr (i : Int) : String :=
  if i < 0 then "-" ++ toString i.natAbs else toString i.natAbs

/-! ## Kinship engine (src/Familytree.pl)

The fact base is a fixed set of people and `parent` facts; the derived
relations are the least relations closed under the Prolog clauses. -/

/-- The eleven people of the fact base. -/
inductive Person where
  | john | bob | eric | frank | ian
  | anna | clara | diana | eva | grace | helen
deriving DecidableEq, Repr

open Person

/-- The twelve `parent(P, C)` facts, in source order. -/
def parentFacts : List (Person × Person) :=
  [(john, bob), (anna, bob), (john, clara), (anna, clara),
   (bob, eva), (diana, eva), (bob, frank), (diana, frank),
   (clara, grace), (eric, grace),
   (frank, ian), (helen, ian)]

/-- `parent(A, C)` holds iff it is one of the stored facts. -/
def parent (a c : Person) : Prop := (a, c) ∈ parentFacts

instance (a c : Person) : Decidable (parent a c) := by
  unfold parent; infer_instance

/-- `ancestor(A, D)`: least relation closed under the two clauses
`ancestor(A,D) :- parent(A,D)` and
`ancestor(A,D) :- parent(A,M), ancestor(M,D)`. -/
inductive ancestor : Person → Person → Prop where
  | base {a d : Person} : parent a d → ancestor a d
  | step {a m d : Person} : parent a m → ancestor m d → ancestor a d

/-- `descendant(A, D)`: least relation closed under the two clauses
`descendant(A,D) :- parent(A,D)` and
`descendant(A,D) :- parent(A,M), descendant(M,D)` — textually the same
clause bodies as `ancestor`, in the same direction. -/
inductive descendant : Person → Person → Prop where
  | base {a d : Person} : parent a d → descendant a d
  | step {a m d : Person} : parent a m → descendant m d → descendant a d

/-! ## Ride fare simulation (src/ride_share.cpp)

`double` fare arithmetic is modelled exactly over `ℚ`; every literal in
the fare formulas and in the claims denotes a rational value. -/

/-- A `Ride` is one of the two concrete variants.  `premium` carries its
surge multiplier; `PremiumRide`'s constructor defaults it to `1.0`
(see `premiumDefault`). -/
inductive Ride where
  | standard (id pickup dropoff : String) (miles : ℚ)
  | premium (id pickup dropoff : String) (miles : ℚ) (surge : ℚ)
deriving DecidableEq, Repr

/-- `PremiumRide` built without an explicit surge argument: the C++
default argument `surge = 1.0`. -/
def premiumDefault (id pickup dropoff : String) (miles : ℚ) : Ride :=
  Ride.premium id pickup dropoff miles 1

/-- `fare()`: `StandardRide` is `3.00 + miles*1.50`; `PremiumRide` is
`5.00 + miles*2.50*surge`. -/
def Ride.fare : Ride → ℚ
  | .standard _ _ _ m => 3 + m * (3/2)
  | .premium _ _ _ m s => 5 + m * (5/2) * s

/-- A `Driver` with its private list of assigned rides. -/
structure Driver where
  driverID : String
  name : String
  rating : ℚ
  assignedRides : List Ride
deriving Repr

/-- `Driver::addRide`: append a ride to the assigned list. -/
def Driver.addRide (d : Driver) (r : Ride) : Driver :=
  { d with assignedRides := d.assignedRides ++ [r] }

/-- `Driver::totalEarnings`: the accumulation loop
`for r in assignedRides: sum += r->fare()` starting from `0.0`. -/
def Driver.totalEarnings (d : Driver) : ℚ :=
  d.assignedRides.foldl (fun sum r => sum + r.fare) 0

/-! ## Statistics calculators

Two independent implementations: the functional OCaml one (`stats.ml`,
stored in `src/Familytree.pl` after the Prolog section) and the
array-based C one (`src/unnamed/part_000`).  `float`/`double` results
(means and medians) are modelled exactly over `ℚ`: both sources apply
the same sequence of exact integer operations followed by one division,
so the rational value determines the printed result.  Sums are kept
exact (`Int`): both accumulators are at least 63 bits wide and the
claims quantify over command-line inputs, whose element values are
32-bit.  The one place where 32-bit `int` overflow is reachable from
such inputs — `median_sorted`'s `left + right` — is modelled with an
explicit wrap (`wrap32`). -/

/-- Ascending sort.  Models both OCaml `List.sort compare` on `int list`
and C `qsort` with `cmp_int`: on integers both produce the unique
ascending arrangement of the input's multiset. -/
def sortAsc (xs : List Int) : List Int := xs.insertionSort (· ≤ ·)

/-- Two's-complement wrap of a 32-bit signed `int` addition result:
the behaviour of the compiled C program on mainstream targets. -/
def wrap32 (v : Int) : Int := (v + 2 ^ 31) % 2 ^ 32 - 2 ^ 31

/-! ### Functional calculator (stats.ml) -/

/-- `mean`: `fold_left (fun (s, c) x -> (s + x, c + 1)) (0, 0)`, then
`sum /. count`; `invalid_arg` (here `none`) on the empty list. -/
def ocamlMean (xs : List Int) : Option ℚ :=
  match xs with
  | [] => none
  | _ :: _ =>
    let sc := xs.foldl (fun p x => (p.1 + x, p.2 + 1)) ((0 : Int), (0 : Int))
    some ((sc.1 : ℚ) / (sc.2 : ℚ))

/-- `median`: sort ascending, take the middle element (odd length) or
the average of the two central elements (even length).  `List.nth`
cannot be out of range at these indices, so `getD`'s default is dead. -/
def ocamlMedian (xs : List Int) : Option ℚ :=
  match xs with
  | [] => none
  | _ :: _ =>
    let s := sortAsc xs
    let n := s.length
    if n % 2 = 1 then some ((s.getD (n / 2) 0 : Int) : ℚ)
    else some (((s.getD (n / 2 - 1) 0 + s.getD (n / 2) 0 : Int) : ℚ) / 2)

/-- `IntMap.update x (None -> Some 1 | Some c -> Some (c+1))`: the
OCaml `Map.Make (Int)` is modelled as an association list strictly
sorted by key, which is exactly the shape `IntMap.bindings` exposes. -/
def imUpdate (x : Int) : List (Int × Int) → List (Int × Int)
  | [] => [(x, 1)]
  | (k, c) :: rest =>
    if x < k then (x, 1) :: (k, c) :: rest
    else if x = k then (k, c + 1) :: rest
    else (k, c) :: imUpdate x rest

/-- `freq_map`: fold the update over the input list. -/
def freqMap (xs : List Int) : List (Int × Int) :=
  xs.foldl (fun m x => imUpdate x m) []

/-- `IntMap.fold (fun _ c acc -> max c acc) m 0`: the maximal frequency. -/
def ocamlMaxf (xs : List Int) : Int :=
  (freqMap xs).foldl (fun acc p => max p.2 acc) 0

/-- `modes`: bindings of the frequency map, filtered to maximal
frequency, keys only, sorted ascending; `invalid_arg` on `[]`. -/
def ocamlModes (xs : List Int) : Option (List Int) :=
  match xs with
  | [] => none
  | _ :: _ =>
    let m := freqMap xs
    let maxf := m.foldl (fun acc p => max p.2 acc) 0
    some (sortAsc ((m.filter (fun p => p.2 == maxf)).map Prod.fst))

/-- One digit of `caml_int_of_string`: `0-9`, `a-z`, `A-Z`, valid when
below the base. -/
def ocamlParseDigit (base : Nat) (c : Char) : Option Nat :=
  let d :=
    if '0' ≤ c && c ≤ '9' then some (c.toNat - 48)
    else if 'a' ≤ c && c ≤ 'z' then some (c.toNat - 97 + 10)
    else if 'A' ≤ c && c ≤ 'Z' then some (c.toNat - 65 + 10)
    else none
  match d with
  | some v => if v < base then some v else none
  | none => none

/-- The digit loop of `caml_int_of_string`: after the first digit,
`_` separators are skipped and every other character must be a digit
of the base. -/
def ocamlDigits (base : Nat) : List Char → Nat → Option Nat
  | [], acc => some acc
  | c :: rest, acc =>
    if c = '_' then ocamlDigits base rest acc
    else
      match ocamlParseDigit base c with
      | some d => ocamlDigits base rest (acc * base + d)
      | none => none

/-- Reinterpret an unsigned 64-bit accumulator value as signed. -/
def toSigned64 (m : Nat) : Int :=
  if m < 2 ^ 63 then (m : Int) else (m : Int) - 2 ^ 64

/-- Truncate into the 63-bit OCaml native `int` range. -/
def wrap63 (v : Int) : Int := (v + 2 ^ 62) % 2 ^ 63 - 2 ^ 62

/-- Model of OCaml `int_of_string_opt` (the runtime's
`caml_int_of_string` on a 64-bit platform): an optional sign, an
optional base marker (`0x`/`0X` hex, `0o`/`0O` octal, `0b`/`0B` binary,
`0u`/`0U` unsigned decimal), a mandatory first digit, then digits with
`_` separators ignored.  The unsigned 64-bit accumulator must not
overflow; a signed decimal literal must fit the 63-bit OCaml `int`
range, while other bases wrap into it. -/
def ocamlIntOfStringOpt (s : String) : Option Int :=
  let cs := s.data
  let sign : Int := match cs with | '-' :: _ => -1 | _ => 1
  let cs1 := match cs with | '-' :: r => r | '+' :: r => r | _ => cs
  let pref : Nat × Bool × List Char :=
    match cs1 with
    | '0' :: 'x' :: r => (16, false, r)
    | '0' :: 'X' :: r => (16, false, r)
    | '0' :: 'o' :: r => (8, false, r)
    | '0' :: 'O' :: r => (8, false, r)
    | '0' :: 'b' :: r => (2, false, r)
    | '0' :: 'B' :: r => (2, false, r)
    | '0' :: 'u' :: r => (10, false, r)
    | '0' :: 'U' :: r => (10, false, r)
    | _ => (10, true, cs1)
  let base := pref.1
  let signed := pref.2.1
  match pref.2.2 with
  | [] => none
  | c0 :: rest =>
    match ocamlParseDigit base c0 with
    | none => none
    | some d0 =>
      match ocamlDigits base rest d0 with
      | none => none
      | some m =>
        if 2 ^ 64 ≤ m then none
        else if signed then
          if m > 2 ^ 62 - 1 + (if sign < 0 then 1 else 0) then none
          else some (sign * (m : Int))
        else some (wrap63 (sign * toSigned64 m))

/-- Outcome of running one of the calculators: exit code, the report
printed to standard output (if the run got that far), and the lines
printed to the error stream. -/
structure RunResult (ρ : Type) where
  exitCode : Nat
  stdout : Option ρ
  stderr : List String
deriving DecidableEq, Repr

/-- The four numeric fields of the functional calculator's report. -/
structure OReport where
  count : Nat
  mean : ℚ
  median : ℚ
  modes : List Int
deriving DecidableEq, Repr

/-- `List.map to_int`: OCaml's `List.map` applies `f` front to back,
so the leftmost unparseable token triggers `exit 2` first. -/
def ocamlParseArgs : List String → Except String (List Int)
  | [] => .ok []
  | t :: rest =>
    match ocamlIntOfStringOpt t with
    | none => .error t
    | some v => (ocamlParseArgs rest).map (v :: ·)

/-- `parse_cli` followed by `describe`: usage message and exit 1 on an
empty argument list; `Invalid integer: <token>` (no quotes) and exit 2
on the first unparseable token, with nothing on standard output; the
report otherwise.  The `getD` defaults are dead: the parsed list is
nonempty on the success path. -/
def ocamlMain (argv0 : String) (args : List String) : RunResult OReport :=
  match args with
  | [] =>
    ⟨1, none, ["Usage: " ++ argv0 ++ " <int1> <int2> ...",
               "Example: " ++ argv0 ++ " 1 2 2 3 4 4 4 5"]⟩
  | _ :: _ =>
    match ocamlParseArgs args with
    | .error t => ⟨2, none, ["Invalid integer: " ++ t]⟩
    | .ok data =>
      ⟨0, some ⟨data.length, (ocamlMean data).getD 0, (ocamlMedian data).getD 0,
                (ocamlModes data).getD []⟩, []⟩

/-! ### Array-based calculator (src/unnamed/part_000) -/

/-- `parse_int_strict`: `strtol` in base 10 — leading C-locale
whitespace, an optional sign, at least one decimal digit consumed to
the end of the token — followed by the `INT_MIN ≤ v ≤ INT_MAX` range
check.  A value outside the `long` range makes `strtol` set `ERANGE`,
which the `int` range check subsumes, so acceptance is exactly
"syntactically decimal and within 32-bit signed range". -/
def cParseIntStrict (s : String) : Option Int :=
  let cs := s.data.dropWhile isSpaceC
  let sign : Int := match cs with | '-' :: _ => -1 | _ => 1
  let cs1 := match cs with | '-' :: r => r | '+' :: r => r | _ => cs
  let digs := cs1.takeWhile (fun c => '0' ≤ c && c ≤ '9')
  let rest := cs1.dropWhile (fun c => '0' ≤ c && c ≤ '9')
  if digs = [] then none
  else if rest ≠ [] then none
  else
    let v := sign * (digs.foldl (fun acc c => acc * 10 + (c.toNat - 48)) 0 : Int)
    if v < -(2 ^ 31) then none
    else if 2 ^ 31 - 1 < v then none
    else some v

/-- `mean` (C): the `long long` accumulation loop, then `sum / n`. -/
def cMean (a : List Int) : ℚ :=
  ((a.foldl (fun sum x => sum + x) 0 : Int) : ℚ) / (a.length : ℚ)

/-- `median_sorted`: middle element for odd length; for even length the
average of the two central elements, whose `left + right` is a 32-bit
signed `int` addition and therefore wraps. -/
def median_sorted (sorted : List Int) : ℚ :=
  let n := sorted.length
  if n % 2 = 1 then ((sorted.getD (n / 2) 0 : Int) : ℚ)
  else
    let left := sorted.getD (n / 2 - 1) 0
    let right := sorted.getD (n / 2) 0
    ((wrap32 (left + right) : Int) : ℚ) / 2

/-- `dropWhile` never lengthens a list (termination helper). -/
theorem dropWhile_len_le (p : Int → Bool) :
    ∀ l : List Int, (l.dropWhile p).length ≤ l.length := by
  intro l
  induction l with
  | nil => simp
  | cons x xs ih =>
    by_cases h : p x
    · simpa [List.dropWhile, h] using Nat.le_succ_of_le ih
    · simp [List.dropWhile, h]

/-- The run-length loop of `modes_from_sorted`: each iteration consumes
one maximal run of equal values, resets the mode buffer on a strictly
larger count, appends on a tie. -/
def modesGo (maxf : Int) (acc : List Int) : List Int → Int × List Int
  | [] => (maxf, acc)
  | v :: rest =>
    let run : Nat := 1 + (rest.takeWhile (· = v)).length
    let rest' := rest.dropWhile (· = v)
    if maxf < (run : Int) then modesGo (run : Int) [v] rest'
    else if (run : Int) = maxf then modesGo maxf (acc ++ [v]) rest'
    else modesGo maxf acc rest'
  termination_by l => l.length
  decreasing_by
    all_goals
      simp only [List.length_cons]
      exact Nat.lt_succ_of_le (dropWhile_len_le _ _)

/-- `modes_from_sorted`: the loop from an empty buffer; on the empty
array the C function writes `maxfreq = 0` and returns no modes, which
is also what the loop yields. -/
def modesFromSorted (sorted : List Int) : Int × List Int :=
  modesGo 0 [] sorted

/-- The five numeric fields of the array-based calculator's report
(count, mean, median, modes, and the trailing frequency annotation). -/
structure CReport where
  count : Nat
  mean : ℚ
  median : ℚ
  modes : List Int
  maxfreq : Int
deriving DecidableEq, Repr

/-- The strict parsing loop of `main`: arguments in order, first
failure wins. -/
def cParseArgs : List String → Except String (List Int)
  | [] => .ok []
  | t :: rest =>
    match cParseIntStrict t with
    | none => .error t
    | some v => (cParseArgs rest).map (v :: ·)

/-- `main` of the array-based calculator: usage and `EXIT_FAILURE` (1)
without arguments; `Invalid integer: '<token>'` and `EXIT_FAILURE` on
the first unparseable token, with nothing on standard output; otherwise
the report computed from a sorted copy.  `malloc` failure is not
modelled. -/
def cMain (argv0 : String) (args : List String) : RunResult CReport :=
  match args with
  | [] =>
    ⟨1, none, ["Usage: " ++ argv0 ++ " <int1> <int2> ...",
               "Example: " ++ argv0 ++ " 1 2 2 3 4 4 4 5"]⟩
  | _ :: _ =>
    match cParseArgs args with
    | .error t => ⟨1, none, ["Invalid integer: '" ++ t ++ "'"]⟩
    | .ok a =>
      let sorted := sortAsc a
      let mm := modesFromSorted sorted
      ⟨0, some ⟨a.length, cMean a, median_sorted sorted, mm.2, mm.1⟩, []⟩

/-! ## Weekly shift scheduler (src/scheduler.cpp)

Days and shifts are the strings of the C++ `DAYS`/`SHIFTS` vectors.
`Schedule` and the other per-run maps are modelled as total functions
whose value at an absent key is the map's default-constructed value,
matching `unordered_map::operator[]`. -/

/-- The `DAYS` vector. -/
def DAYS : List String := ["Mon", "Tue", "Wed", "Thu", "Fri", "Sat", "Sun"]

/-- The `SHIFTS` vector (also the membership test `SHIFT_SET`). -/
def SHIFTS : List String := ["morning", "afternoon", "evening"]

/-- `Config` with the C++ default member values. -/
structure Config where
  min_per_shift : Int := 2
  max_per_shift : Int := 4
  max_days_per_employee : Int := 5
  random_seed : Nat := 42
deriving DecidableEq, Repr

/-- `PrefValue = variant<string, vector<string>>`. -/
inductive PrefValue where
  | one (s : String)
  | many (ss : List String)
deriving DecidableEq, Repr

/-- `RawPreferences`: employee → (day → preference value), as nested
association lists (the C++ maps have unique keys). -/
def RawPrefs : Type := List (String × List (String × PrefValue))

/-- Normalized preferences: employee → day → ranked shift labels. -/
def Prefs : Type := String → String → List String

/-- Clean one label: `to_lower(trim(s))`, kept only when non-empty and
a member of `SHIFT_SET`. -/
def cleanLabel (s : String) : Option String :=
  let t := toLowerStr (trim s)
  if t ≠ "" && SHIFTS.contains t then some t else none

/-- One day's normalized list from the raw entry found for that day
(`none` when the day is absent from the input). -/
def normEntry : Option PrefValue → List String
  | none => []
  | some (.one s) => match cleanLabel s with | some t => [t] | none => []
  | some (.many ss) => ss.filterMap cleanLabel

/-- `normalize_preferences`, read through the resulting map: employees
absent from the raw input (for which `normalize_preferences` creates no
entry) read as the default empty list, exactly what the scheduler's
`prefs[emp][day]` would default-construct. -/
def normalizePrefs (raw : RawPrefs) : Prefs := fun emp day =>
  match raw.lookup emp with
  | none => []
  | some perDay => normEntry (perDay.lookup day)

/-- `unique_cleaned`'s loop: trim, drop empties, keep first occurrence
(`seen` accumulates the names already emitted). -/
def ucGo : List String → List String → List String
  | [], _ => []
  | n :: rest, seen =>
    let t := trim n
    if t = "" then ucGo rest seen
    else if seen.contains t then ucGo rest seen
    else t :: ucGo rest (t :: seen)

/-- `unique_cleaned`. -/
def uniqueCleaned (names : List String) : List String := ucGo names []

/-! ### The seeded generator and `std::shuffle`

`std::mt19937` is the standard-specified Mersenne Twister engine; its
initialization, twist and tempering are reproduced below.  The
`std::shuffle` algorithm and the reduction of raw engine output to a
bounded index are implementation-defined by the C++ standard, so they
are modelled as a seeded selection shuffle with modulo reduction; it
draws from the engine only for ranges of more than one element, like
the library loop, and no theorem in this file depends on which
permutation is produced — only on the output being a permutation of
the input (`shuffleList_perm`). -/

/-- Mersenne Twister state: 624 32-bit words plus the read index. -/
structure MTState where
  words : List Nat
  idx : Nat
deriving DecidableEq, Repr

/-- The seeding recurrence `x_i = 1812433253*(x_{i-1} xor (x_{i-1} >> 30)) + i`. -/
def mtInitAux : Nat → Nat → Nat → List Nat
  | 0, _, _ => []
  | n + 1, i, prev =>
    let w := (1812433253 * (prev ^^^ (prev >>> 30)) + i) % 2 ^ 32
    w :: mtInitAux n (i + 1) w

/-- `mt19937 rng(seed)`. -/
def mtInit (seed : Nat) : MTState :=
  let s0 := seed % 2 ^ 32
  ⟨s0 :: mtInitAux 623 1 s0, 624⟩

/-- Read word `i` of the state. -/
def mtWord (ws : List Nat) (i : Nat) : Nat := ws.getD i 0

/-- One in-place step of the twist at position `i`. -/
def mtTwistStep (ws : List Nat) (i : Nat) : List Nat :=
  let y := (mtWord ws i &&& 0x80000000) ||| (mtWord ws ((i + 1) % 624) &&& 0x7FFFFFFF)
  let v := mtWord ws ((i + 397) % 624) ^^^ (y >>> 1) ^^^ (if y % 2 = 1 then 0x9908B0DF else 0)
  ws.set i v

/-- The full twist. -/
def mtTwistAll (ws : List Nat) : List Nat :=
  (List.range 624).foldl mtTwistStep ws

/-- Output tempering. -/
def mtTemper (x : Nat) : Nat :=
  let y1 := x ^^^ (x >>> 11)
  let y2 := y1 ^^^ ((y1 <<< 7) &&& 0x9D2C5680)
  let y3 := y2 ^^^ ((y2 <<< 15) &&& 0xEFC60000)
  y3 ^^^ (y3 >>> 18)

/-- Draw one 32-bit word. -/
def mtNext (st : MTState) : Nat × MTState :=
  if 624 ≤ st.idx then
    let ws := mtTwistAll st.words
    (mtTemper (mtWord ws 0), ⟨ws, 1⟩)
  else
    (mtTemper (mtWord st.words st.idx), ⟨st.words, st.idx + 1⟩)

/-- Draw an index below `bound` (modulo reduction of a raw draw). -/
def boundedNext (bound : Nat) (st : MTState) : Nat × MTState :=
  let xs := mtNext st
  (xs.1 % bound, xs.2)

/-- `(l.eraseIdx j).length < l.length` when `j` is in range. -/
theorem eraseIdx_len_lt {α : Type} (l : List α) (j : Nat) (h : j < l.length) :
    (l.eraseIdx j).length < l.length := by
  rw [List.length_eraseIdx, if_pos h]
  omega

/-- Seeded selection shuffle modelling `std::shuffle(candidates, rng)`:
repeatedly draw an index into the remaining elements and move that
element to the front of the output; ranges of at most one element draw
nothing.  Each step removes exactly one element, so fuel equal to the
length reproduces the loop exactly (`shuffleList` supplies it). -/
def shuffleGo : Nat → List String → MTState → List String × MTState
  | _, [], g => ([], g)
  | _, [x], g => ([x], g)
  | 0, xs, g => (xs, g)
  | fuel + 1, x0 :: x1 :: rest, g =>
    let xs := x0 :: x1 :: rest
    let jg := boundedNext xs.length g
    let pr := shuffleGo fuel (xs.eraseIdx jg.1) jg.2
    (xs.getD jg.1 "" :: pr.1, pr.2)

/-- The shuffle of a whole candidate list. -/
def shuffleList (xs : List String) (g : MTState) : List String × MTState :=
  shuffleGo xs.length xs g

/-! ### The scheduling passes -/

/-- `Schedule`: day → shift → assigned names, default empty
(`empty_schedule` creates every `(day, shift)` entry empty, and
`operator[]` default-constructs the rest). -/
def Schedule : Type := String → String → List String

/-- The mutable state of one `schedule_employees` run. -/
structure SchedSt where
  sched : Schedule
  assigned : String → String → Bool
  daysWorked : String → Int
  warns : List String
  carry : String → List String
  rng : MTState

/-- `sched[day][shift].push_back(emp); assigned_on_day[day].insert(emp);
days_worked[emp] += 1;` — the compound operation every assignment site
performs. -/
def SchedSt.assignEmp (st : SchedSt) (day shift emp : String) : SchedSt :=
  { st with
    sched := fun d s =>
      if d = day ∧ s = shift then st.sched d s ++ [emp] else st.sched d s,
    assigned := fun d e =>
      if d = day ∧ e = emp then true else st.assigned d e,
    daysWorked := fun e =>
      if e = emp then st.daysWorked e + 1 else st.daysWorked e }

/-- `shift_has_capacity`: unlimited when `max_per_shift ≤ 0`, else
strictly below the cap. -/
def shiftCap (cfg : Config) (st : SchedSt) (day shift : String) : Bool :=
  decide (cfg.max_per_shift ≤ 0) ||
    decide (((st.sched day shift).length : Int) < cfg.max_per_shift)

/-- One employee at one rank of the preference-rank pass. -/
def rankStep (cfg : Config) (prefs : Prefs) (day : String) (rank : Nat)
    (st : SchedSt) (emp : String) : SchedSt :=
  if st.assigned day emp then st
  else if cfg.max_days_per_employee ≤ st.daysWorked emp then st
  else
    let ranked := prefs emp day
    if rank < ranked.length then
      let target := ranked.getD rank ""
      if SHIFTS.contains target then
        if shiftCap cfg st day target then st.assignEmp day target emp else st
      else st
    else st

/-- One employee of the fallback pass on day number `di`. -/
def fallbackStep (cfg : Config) (prefs : Prefs) (di : Nat)
    (st : SchedSt) (emp : String) : SchedSt :=
  let day := DAYS.getD di ""
  if st.assigned day emp then st
  else if cfg.max_days_per_employee ≤ st.daysWorked emp then st
  else
    let ranked := prefs emp day
    if ranked = [] then st
    else
      let tryOrder := ranked ++ SHIFTS.filter (fun s => !ranked.contains s)
      match tryOrder.find? (fun s => shiftCap cfg st day s) with
      | some s => st.assignEmp day s emp
      | none =>
        if di + 1 < DAYS.length then
          let nd := DAYS.getD (di + 1) ""
          { st with carry := fun d => if d = nd then st.carry d ++ [emp] else st.carry d }
        else st

/-- One day of the greedy phase: candidate order (carry-overs first),
ranks 0–2, then the fallback pass. -/
def dayPass (cfg : Config) (prefs : Prefs) (employees : List String)
    (st : SchedSt) (di : Nat) : SchedSt :=
  let day := DAYS.getD di ""
  let carryList := st.carry day
  let order := carryList ++ employees.filter (fun e => !carryList.contains e)
  let st1 := [0, 1, 2].foldl (fun s rank => order.foldl (rankStep cfg prefs day rank) s) st
  order.foldl (fallbackStep cfg prefs di) st1

/-- The Mon→Sun greedy loop. -/
def daysLoop (cfg : Config) (prefs : Prefs) (employees : List String)
    (st : SchedSt) : SchedSt :=
  (List.range DAYS.length).foldl (dayPass cfg prefs employees) st

/-- The backfill addition loop over the shuffled candidates: stop on a
full shift, after each addition stop once `added ≥ need`. -/
def backfillAdd (cfg : Config) (day shift : String) (need : Int) :
    List String → Nat → SchedSt → SchedSt
  | [], _, st => st
  | emp :: rest, added, st =>
    if 0 < cfg.max_per_shift ∧ cfg.max_per_shift ≤ ((st.sched day shift).length : Int) then st
    else
      let st' := st.assignEmp day shift emp
      if need ≤ (added : Int) + 1 then st'
      else backfillAdd cfg day shift need rest (added + 1) st'

/-- The minimum-staffing warning string. -/
def minWarning (day shift : String) (sz : Nat) (minp : Int) : String :=
  "Warning: Could not meet min staffing for " ++ day ++ " " ++ shift ++
    " (" ++ toString sz ++ "/" ++ intStr minp ++ "). Consider more staff or relaxing caps."

/-- Backfill of one `(day, shift)` slot. -/
def backfillSlot (cfg : Config) (employees : List String) (st : SchedSt)
    (day shift : String) : SchedSt :=
  let need : Int := cfg.min_per_shift - ((st.sched day shift).length : Int)
  if need ≤ 0 then st
  else
    let candidates := employees.filter (fun e =>
      !(st.assigned day e) && decide (st.daysWorked e < cfg.max_days_per_employee))
    let sg := shuffleList candidates st.rng
    let st1 : SchedSt := { st with rng := sg.2 }
    let st2 := backfillAdd cfg day shift need sg.1 0 st1
    if ((st2.sched day shift).length : Int) < cfg.min_per_shift then
      { st2 with warns := st2.warns ++
          [minWarning day shift (st2.sched day shift).length cfg.min_per_shift] }
    else st2

/-- The 21 `(day, shift)` slots in loop order. -/
def slotPairs : List (String × String) := List.product DAYS SHIFTS

/-- The backfill pass over all slots. -/
def backfillPass (cfg : Config) (employees : List String) (st : SchedSt) : SchedSt :=
  slotPairs.foldl (fun s p => backfillSlot cfg employees s p.1 p.2) st

/-- The unrelocatable-overflow note. -/
def noteWarning (emp day shift : String) : String :=
  "Note: Could not relocate " ++ emp ++ " from " ++ day ++ " " ++ shift ++
    "; leaving unassigned."

/-- `std::find` over `DAYS` followed by the next-day lookup. -/
def nextDayOf (day : String) : Option String :=
  let di := DAYS.indexOf day
  if di + 1 < DAYS.length then some (DAYS.getD (di + 1) "") else none

/-- The body of the max-capacity `while` loop: pop the most recently
added employee of an over-full slot and try to relocate them — another
shift the same day first, else any shift of the next day — emitting the
note when neither succeeds. -/
def relocateBody (cfg : Config) (day shift : String) (st : SchedSt) : SchedSt :=
  let vec := st.sched day shift
  let emp := (vec.getLast?).getD ""
  let st0 : SchedSt := { st with sched := fun d s =>
    if d = day ∧ s = shift then vec.dropLast else st.sched d s }
  let st1 : SchedSt :=
    if st0.assigned day emp then
      { st0 with
        assigned := fun d e => if d = day ∧ e = emp then false else st0.assigned d e,
        daysWorked := fun e => if e = emp then st0.daysWorked e - 1 else st0.daysWorked e }
    else st0
  match SHIFTS.find? (fun s2 =>
      !(s2 == shift) &&
      decide (((st1.sched day s2).length : Int) < cfg.max_per_shift) &&
      !(st1.assigned day emp)) with
  | some s2 => st1.assignEmp day s2 emp
  | none =>
    match nextDayOf day with
    | some nd =>
      match SHIFTS.find? (fun s =>
          !(st1.assigned nd emp) &&
          (decide (cfg.max_per_shift ≤ 0) ||
           decide (((st1.sched nd s).length : Int) < cfg.max_per_shift))) with
      | some s => st1.assignEmp nd s emp
      | none => { st1 with warns := st1.warns ++ [noteWarning emp day shift] }
    | none => { st1 with warns := st1.warns ++ [noteWarning emp day shift] }

/-- The `while (size > max)` loop of one slot.  Every iteration pops
exactly one element of this slot (relocations push only to other
slots), so the slot's current length bounds the iteration count; fuel
equal to that length reproduces the loop exactly. -/
def enforceSlot (cfg : Config) (day shift : String) : Nat → SchedSt → SchedSt
  | 0, st => st
  | fuel + 1, st =>
    if cfg.max_per_shift < ((st.sched day shift).length : Int) then
      enforceSlot cfg day shift fuel (relocateBody cfg day shift st)
    else st

/-- The max-capacity enforcement pass (skipped when `max_per_shift ≤ 0`). -/
def enforcePass (cfg : Config) (st : SchedSt) : SchedSt :=
  if 0 < cfg.max_per_shift then
    slotPairs.foldl (fun s p => enforceSlot cfg p.1 p.2 (s.sched p.1 p.2).length s) st
  else st

/-- The two error kinds `schedule_employees` can throw:
`std::invalid_argument` and `std::runtime_error`. -/
inductive SchedErr where
  | invalidArg (msg : String)
  | runtimeErr (msg : String)
deriving DecidableEq, Repr

/-- The message built by `feasible_or_raise`. -/
def infeasibleMsg (required supply needMore : Int) : String :=
  "Infeasible: need at least " ++ intStr required ++
    " total shift assignments, but employee supply caps at " ++ intStr supply ++
    ". Consider adding ~" ++ intStr needMore ++
    " more employees or increasing max_days_per_employee."

/-- `feasible_or_raise`: `required = 7*3*min_per_shift`,
`supply = count*max_days_per_employee`; on `supply < required` the
error message reports both plus `deficit/max_days + (deficit%max_days ? 1 : 0)`
with C++ truncating `/` and `%`. -/
def feasibleCheck (es : List String) (cfg : Config) : Option SchedErr :=
  let required : Int := (DAYS.length : Int) * (SHIFTS.length : Int) * cfg.min_per_shift
  let supply : Int := (es.length : Int) * cfg.max_days_per_employee
  if supply < required then
    let deficit := required - supply
    let needMore := Int.tdiv deficit cfg.max_days_per_employee +
      (if Int.tmod deficit cfg.max_days_per_employee ≠ 0 then 1 else 0)
    some (.runtimeErr (infeasibleMsg required supply needMore))
  else none

/-- `schedule_employees`: clean the employee list, validate, check
feasibility, normalize preferences, then run the greedy, backfill and
enforcement passes over the initial empty state. -/
def scheduleEmployees (employees : List String) (raw : RawPrefs) (cfg : Config) :
    Except SchedErr (Schedule × List String) :=
  let es := uniqueCleaned employees
  if es = [] then .error (.invalidArg "No employees provided.")
  else
    match feasibleCheck es cfg with
    | some e => .error e
    | none =>
      let prefs := normalizePrefs raw
      let st0 : SchedSt :=
        ⟨fun _ _ => [], fun _ _ => false, fun _ => 0, [], fun _ => [], mtInit cfg.random_seed⟩
      let st3 := enforcePass cfg (backfillPass cfg es (daysLoop cfg prefs es st0))
      .ok (st3.sched, st3.warns)

/-- The schedule of a normally-returning run (empty off the success path). -/
def schedOf (employees : List String) (raw : RawPrefs) (cfg : Config) : Schedule :=
  match scheduleEmployees employees raw cfg with
  | .ok p => p.1
  | .error _ => fun _ _ => []

/-- The warnings of a normally-returning run (empty off the success path). -/
def warnsOf (employees : List String) (raw : RawPrefs) (cfg : Config) : List String :=
  match scheduleEmployees employees raw cfg with
  | .ok p => p.2
  | .error _ => []

/-- How many of `day`'s shift slots contain `emp`. -/
def dayCount (sch : Schedule) (day emp : String) : Nat :=
  (SHIFTS.map (fun s => (sch day s).count emp)).sum

/-- How many shift slots of the whole week contain `emp`. -/
def weekCount (sch : Schedule) (emp : String) : Nat :=
  (DAYS.map (fun d => dayCount sch d emp)).sum

/-! ## Theorems -/

/-- Helper: the C++ suggestion `d/m + (d%m ? 1 : 0)` (truncating
division) is the ceiling of `d / m` for positive `d`, `m`, characterised
by the two defining inequalities. -/
theorem tdiv_suggestion_is_ceil (d m : Int) (hd : 0 < d) (hm : 0 < m) :
    ((d.tdiv m + (if d.tmod m ≠ 0 then 1 else 0)) - 1) * m < d ∧
    d ≤ (d.tdiv m + (if d.tmod m ≠ 0 then 1 else 0)) * m := by
  rw [Int.tdiv_eq_ediv (le_of_lt hd) (le_of_lt hm),
      Int.tmod_eq_emod (le_of_lt hd) (le_of_lt hm)]
  have h1 := Int.ediv_add_emod d m
  have h2 := Int.emod_nonneg d (ne_of_gt hm)
  have h3 := Int.emod_lt_of_pos d hm
  by_cases h : d % m = 0
  · rw [if_neg (by simpa using h)]
    constructor
    · have he : (d / m + 0 - 1) * m = m * (d / m) - m := by ring
      rw [he]; linarith
    · have he : (d / m + 0) * m = m * (d / m) := by ring
      rw [he]; linarith
  · rw [if_pos (by simpa using h)]
    have h4 : 0 < d % m := lt_of_le_of_ne h2 (Ne.symm h)
    constructor
    · have he : (d / m + 1 - 1) * m = m * (d / m) := by ring
      rw [he]; linarith
    · have he : (d / m + 1) * m = m * (d / m) + m := by ring
      rw [he]; linarith

/-- Claim C8: in the kinship engine, `descendant(A, D)` succeeds exactly
when `ancestor(A, D)` succeeds — the two recursive closures run in the
same parent→child direction for every pair of persons. -/
theorem kinship_descendant_iff_ancestor :
    ∀ a d : Person, descendant a d ↔ ancestor a d := by
  intro a d
  constructor
  · intro h
    induction h with
    | base hp => exact .base hp
    | step hp _ ih => exact .step hp ih
  · intro h
    induction h with
    | base hp => exact .base hp
    | step hp _ ih => exact .step hp ih

/-- Helper: the earnings accumulation loop equals the sum of the fares. -/
theorem foldl_fare_eq_sum (l : List Ride) :
    ∀ a : ℚ, l.foldl (fun sum r => sum + r.fare) a = a + (l.map Ride.fare).sum := by
  induction l with
  | nil => intro a; simp
  | cons r rest ih =>
    intro a
    simp only [List.foldl_cons, List.map_cons, List.sum_cons, ih]
    ring

/-- Claim C9: a `StandardRide` of `d` miles has fare `3.00 + d·1.50`, a
`PremiumRide` of `d` miles at surge `s` has fare `5.00 + d·2.50·s` with
`s` defaulting to `1.0`; a driver's `totalEarnings` is the sum of
`fare()` over the assigned list; a 15.2-mile standard ride costs 25.80
and an 8.5-mile premium ride at surge 1.30 costs 32.625, and a driver
assigned both earns their sum. -/
theorem ride_fares_and_earnings :
    (∀ (id pu dof : String) (d : ℚ), (Ride.standard id pu dof d).fare = 3 + d * 1.5)
    ∧ (∀ (id pu dof : String) (d s : ℚ), (Ride.premium id pu dof d s).fare = 5 + d * 2.5 * s)
    ∧ (∀ (id pu dof : String) (d : ℚ), premiumDefault id pu dof d = Ride.premium id pu dof d 1)
    ∧ (∀ dr : Driver, dr.totalEarnings = (dr.assignedRides.map Ride.fare).sum)
    ∧ (Ride.standard "R1001" "Downtown" "Airport" 15.2).fare = 25.80
    ∧ (Ride.premium "R1002" "UT Austin" "The Domain" 8.5 1.30).fare = 32.625
    ∧ (Driver.mk "D01" "Avery" 4.88 [Ride.standard "R1001" "Downtown" "Airport" 15.2,
        Ride.premium "R1002" "UT Austin" "The Domain" 8.5 1.30]).totalEarnings
        = 25.80 + 32.625 := by
  refine ⟨?_, ?_, ?_, ?_, ?_, ?_, ?_⟩
  · intro id pu dof d; show 3 + d * (3/2) = 3 + d * 1.5; norm_num
  · intro id pu dof d s; show 5 + d * (5/2) * s = 5 + d * 2.5 * s; norm_num
  · intro id pu dof d; rfl
  · intro dr
    simpa using foldl_fare_eq_sum dr.assignedRides 0
  · show 3 + (15.2 : ℚ) * (3/2) = 25.80; norm_num
  · show 5 + (8.5 : ℚ) * (5/2) * 1.30 = 32.625; norm_num
  · norm_num [Driver.totalEarnings, Ride.fare]

/-- Claim C10: the two calculators do not accept the same tokens — the
OCaml parser accepts `0x10` (as 16) and `1_000` (as 1000) and the run
proceeds to a report, while the strict base-10 C parser rejects both
and its run exits with the invalid-integer error. -/
theorem stats_parsers_diverge :
    (ocamlIntOfStringOpt "0x10" = some 16 ∧ cParseIntStrict "0x10" = none)
    ∧ (ocamlIntOfStringOpt "1_000" = some 1000 ∧ cParseIntStrict "1_000" = none)
    ∧ ((ocamlMain "stats" ["0x10"]).exitCode = 0
        ∧ (ocamlMain "stats" ["0x10"]).stdout.isSome = true
        ∧ (ocamlMain "stats" ["1_000"]).exitCode = 0
        ∧ (ocamlMain "stats" ["1_000"]).stdout.isSome = true)
    ∧ cMain "stats" ["0x10"] = ⟨1, none, ["Invalid integer: '0x10'"]⟩
    ∧ cMain "stats" ["1_000"] = ⟨1, none, ["Invalid integer: '1_000'"]⟩ := by
  refine ⟨by decide, by decide, ⟨?_, ?_, ?_, ?_⟩, by decide, by decide⟩ <;> rfl

/-- Claim C7, counterexample: on the unparseable token `abc` the
functional calculator prints `Invalid integer: abc` — without the
single quotes the claim asserts — while the array-based one prints
`Invalid integer: 'abc'`. -/
theorem stats_invalid_message_cex :
    ocamlMain "stats" ["abc"] = ⟨2, none, ["Invalid integer: abc"]⟩
    ∧ "Invalid integer: abc" ≠ "Invalid integer: 'abc'"
    ∧ cMain "stats" ["abc"] = ⟨1, none, ["Invalid integer: 'abc'"]⟩ := by
  refine ⟨by decide, by decide, by decide⟩

/-- Claim C7, amended: on an argument list whose parse fails, each
calculator exits non-zero with nothing on standard output and one error
line naming the first failing token — the functional one as
`Invalid integer: <token>` with exit code 2, the array-based one as
`Invalid integer: '<token>'` with the generic failure code 1. -/
theorem stats_invalid_token_exit (argv0 : String) (args : List String) (t u : String)
    (hargs : args ≠ [])
    (ho : ocamlParseArgs args = .error t)
    (hc : cParseArgs args = .error u) :
    ocamlMain argv0 args = ⟨2, none, ["Invalid integer: " ++ t]⟩
    ∧ cMain argv0 args = ⟨1, none, ["Invalid integer: '" ++ u ++ "'"]⟩ := by
  match args, hargs with
  | a :: rest, _ =>
    constructor
    · simp only [ocamlMain, ho]
    · simp only [cMain, hc]

/-- Claim C7 witness: the amended behaviour at the concrete token `abc`. -/
theorem stats_invalid_token_exit_witness :
    ocamlMain "stats" ["abc"] = ⟨2, none, ["Invalid integer: " ++ "abc"]⟩
    ∧ cMain "stats" ["abc"] = ⟨1, none, ["Invalid integer: '" ++ "abc" ++ "'"]⟩ :=
  stats_invalid_token_exit "stats" ["abc"] "abc" "abc" (by decide) (by rfl) (by rfl)

/-- Claim C5: `schedule_employees` is deterministic.  The embedding is a
pure function of the employee list, the raw preferences and the config
(whose `random_seed` drives the single `mt19937` engine, the only
randomness source of the C++ code; the container iterations the C++
performs are all over deterministically ordered vectors), so two runs
on identical inputs return identical (schedule, warnings) results. -/
theorem sched_deterministic (e1 e2 : List String) (r1 r2 : RawPrefs) (c1 c2 : Config)
    (he : e1 = e2) (hr : r1 = r2) (hc : c1 = c2) :
    scheduleEmployees e1 r1 c1 = scheduleEmployees e2 r2 c2 := by
  subst he; subst hr; subst hc; rfl

/-- Claim C5 witness: two runs on the example-shaped concrete input
agree. -/
theorem sched_deterministic_witness :
    scheduleEmployees ["Alice", "Bob"] [("Alice", [("Mon", .one "morning")])] {} =
      scheduleEmployees ["Alice", "Bob"] [("Alice", [("Mon", .one "morning")])] {} :=
  sched_deterministic _ _ _ _ _ _ rfl rfl rfl

/-- Claim C2, counterexample: on an input whose cleaned employee list is
empty the claimed equivalence fails — the supply bound `0·5 < 42` holds,
yet `schedule_employees` raises `invalid_argument`, not the Infeasible
`runtime_error`. -/
theorem sched_feasibility_cex :
    scheduleEmployees [] [] {} = Except.error (.invalidArg "No employees provided.")
    ∧ ((uniqueCleaned ([] : List String)).length : Int) * ({} : Config).max_days_per_employee
        < 7 * 3 * ({} : Config).min_per_shift :=
  ⟨rfl, by decide⟩

/-- Claim C2, amended: for inputs whose cleaned employee list is
nonempty (and a positive `max_days_per_employee`), `schedule_employees`
raises Infeasible exactly when `count·max_days < 7·3·min_per_shift`,
and the error then carries the message reporting the required total,
the supply cap, and a suggestion `q` that is the ceiling of
`deficit / max_days` (characterised by `(q-1)·max_days < deficit ≤ q·max_days`). -/
theorem sched_feasibility (employees : List String) (raw : RawPrefs) (cfg : Config)
    (hne : uniqueCleaned employees ≠ [])
    (hmd : 0 < cfg.max_days_per_employee) :
    ((∃ m, scheduleEmployees employees raw cfg = .error (.runtimeErr m)) ↔
      ((uniqueCleaned employees).length : Int) * cfg.max_days_per_employee <
        7 * 3 * cfg.min_per_shift)
    ∧ (((uniqueCleaned employees).length : Int) * cfg.max_days_per_employee <
          7 * 3 * cfg.min_per_shift →
        ∃ q : Int,
          scheduleEmployees employees raw cfg = .error (.runtimeErr
            (infeasibleMsg (7 * 3 * cfg.min_per_shift)
              (((uniqueCleaned employees).length : Int) * cfg.max_days_per_employee) q))
          ∧ (q - 1) * cfg.max_days_per_employee <
              7 * 3 * cfg.min_per_shift -
                ((uniqueCleaned employees).length : Int) * cfg.max_days_per_employee
          ∧ 7 * 3 * cfg.min_per_shift -
                ((uniqueCleaned employees).length : Int) * cfg.max_days_per_employee ≤
              q * cfg.max_days_per_employee) := by
  have hD7 : (DAYS.length : Int) = 7 := by norm_num [DAYS]
  have hS3 : (SHIFTS.length : Int) = 3 := by norm_num [SHIFTS]
  by_cases hlt : ((uniqueCleaned employees).length : Int) * cfg.max_days_per_employee <
      7 * 3 * cfg.min_per_shift
  · have hres : scheduleEmployees employees raw cfg = .error (.runtimeErr
        (infeasibleMsg (7 * 3 * cfg.min_per_shift)
          (((uniqueCleaned employees).length : Int) * cfg.max_days_per_employee)
          (Int.tdiv (7 * 3 * cfg.min_per_shift -
              ((uniqueCleaned employees).length : Int) * cfg.max_days_per_employee)
              cfg.max_days_per_employee +
            (if Int.tmod (7 * 3 * cfg.min_per_shift -
                ((uniqueCleaned employees).length : Int) * cfg.max_days_per_employee)
                cfg.max_days_per_employee ≠ 0 then 1 else 0)))) := by
      simp only [scheduleEmployees, feasibleCheck, hD7, hS3]
      rw [if_neg hne, if_pos hlt]
    constructor
    · exact ⟨fun _ => hlt, fun _ => ⟨_, hres⟩⟩
    · intro _
      refine ⟨_, hres, ?_, ?_⟩
      · exact (tdiv_suggestion_is_ceil _ _ (by linarith) hmd).1
      · exact (tdiv_suggestion_is_ceil _ _ (by linarith) hmd).2
  · have hres : ∃ p, scheduleEmployees employees raw cfg = .ok p := by
      simp only [scheduleEmployees, feasibleCheck, hD7, hS3]
      rw [if_neg hne, if_neg hlt]
      exact ⟨_, rfl⟩
    obtain ⟨p, hp⟩ := hres
    constructor
    · constructor
      · rintro ⟨m, hm⟩
        rw [hp] at hm
        cases hm
      · intro h; exact absurd h hlt
    · intro h; exact absurd h hlt

/-- Claim C2 witness: one employee with default config yields the
Infeasible error with required 42, supply 5 and suggestion 8. -/
theorem sched_feasibility_witness :
    scheduleEmployees ["A"] [] {} = .error (.runtimeErr
      ("Infeasible: need at least 42 total shift assignments, but employee supply " ++
       "caps at 5. Consider adding ~8 more employees or increasing max_days_per_employee.")) := by
  obtain ⟨q, hq, h1, h2⟩ := (sched_feasibility ["A"] [] {} (by decide) (by decide)).2 (by decide)
  have e1 : ({} : Config).max_days_per_employee = 5 := rfl
  have e2 : ({} : Config).min_per_shift = 2 := rfl
  have e3 : ((uniqueCleaned ["A"]).length : Int) = 1 := by decide
  rw [e1, e2, e3] at h1 h2
  have hq8 : q = 8 := by omega
  subst hq8
  rw [hq]
  rfl

/-- Claim C3, counterexample: a raw day entry listing `morning` four
times normalizes to four copies of `morning` — the normalized list is
neither capped at 3 entries nor pairwise distinct. -/
theorem pref_normalization_cex :
    normalizePrefs [("E", [("Mon",
        PrefValue.many ["morning", "morning", "morning", "morning"])])] "E" "Mon"
      = ["morning", "morning", "morning", "morning"]
    ∧ ¬ ((normalizePrefs [("E", [("Mon",
          PrefValue.many ["morning", "morning", "morning", "morning"])])] "E" "Mon").length ≤ 3
        ∧ (normalizePrefs [("E", [("Mon",
          PrefValue.many ["morning", "morning", "morning", "morning"])])] "E" "Mon").Pairwise (· ≠ ·)) := by
  exact ⟨rfl, by decide⟩

/-- Helper: a label `cleanLabel` keeps is a recognized shift name. -/
theorem cleanLabel_valid {s t : String} (h : cleanLabel s = some t) :
    SHIFTS.contains t = true := by
  simp only [cleanLabel] at h
  split_ifs at h with hc
  · cases h
    exact ((Bool.and_eq_true _ _).mp hc).2

/-- Claim C3, amended: for every employee present in the raw input and
every day, the normalized list consists of recognized labels only
(members of `SHIFT_SET` after trimming and lower-casing); a single-label
entry becomes a list of at most one element (exactly the cleaned label
when it is valid, empty otherwise); an absent day normalizes to the
empty list; a list entry normalizes to its recognized labels in order —
so no longer than the raw entry, and empty when no label is valid — but
duplicates are retained and the length is not capped at 3. -/
theorem pref_normalization (raw : RawPrefs) (emp day : String)
    (perDay : List (String × PrefValue)) (h : raw.lookup emp = some perDay) :
    (∀ t ∈ normalizePrefs raw emp day, SHIFTS.contains t = true)
    ∧ (∀ s : String, perDay.lookup day = some (.one s) →
        (normalizePrefs raw emp day).length ≤ 1
        ∧ (∀ t, cleanLabel s = some t → normalizePrefs raw emp day = [t])
        ∧ (cleanLabel s = none → normalizePrefs raw emp day = []))
    ∧ (perDay.lookup day = none → normalizePrefs raw emp day = [])
    ∧ (∀ ss : List String, perDay.lookup day = some (.many ss) →
        normalizePrefs raw emp day = ss.filterMap cleanLabel
        ∧ (normalizePrefs raw emp day).length ≤ ss.length
        ∧ ((∀ s ∈ ss, cleanLabel s = none) → normalizePrefs raw emp day = [])) := by
  have hnp : normalizePrefs raw emp day = normEntry (perDay.lookup day) := by
    unfold normalizePrefs
    rw [h]
  refine ⟨?_, ?_, ?_, ?_⟩
  · intro t ht
    rw [hnp] at ht
    cases hl : perDay.lookup day with
    | none => rw [hl] at ht; simp [normEntry] at ht
    | some v =>
      rw [hl] at ht
      cases v with
      | one s =>
        simp only [normEntry] at ht
        cases hc : cleanLabel s with
        | none => rw [hc] at ht; simp at ht
        | some t' =>
          rw [hc] at ht
          simp at ht
          subst ht
          exact cleanLabel_valid hc
      | many ss =>
        simp only [normEntry, List.mem_filterMap] at ht
        obtain ⟨s, _, hc⟩ := ht
        exact cleanLabel_valid hc
  · intro s hl
    rw [hnp, hl]
    simp only [normEntry]
    refine ⟨?_, ?_, ?_⟩
    · cases hc : cleanLabel s <;> simp
    · intro t hc; rw [hc]
    · intro hc; rw [hc]
  · intro hl; rw [hnp, hl]; rfl
  · intro ss hl
    rw [hnp, hl]
    refine ⟨rfl, ?_, ?_⟩
    · simpa [normEntry] using List.length_filterMap_le cleanLabel ss
    · intro hall
      simp only [normEntry]
      rw [List.filterMap_eq_nil_iff]
      exact hall

/-- Claim C3 witness: the amended statement at a concrete raw input with
one single-label entry (` MORNING ` cleans to `morning`). -/
theorem pref_normalization_witness :
    (∀ t ∈ normalizePrefs [("E", [("Mon", PrefValue.one " MORNING ")])] "E" "Mon",
        SHIFTS.contains t = true)
    ∧ (∀ s : String, [("Mon", PrefValue.one " MORNING ")].lookup "Mon" = some (.one s) →
        (normalizePrefs [("E", [("Mon", PrefValue.one " MORNING ")])] "E" "Mon").length ≤ 1
        ∧ (∀ t, cleanLabel s = some t →
            normalizePrefs [("E", [("Mon", PrefValue.one " MORNING ")])] "E" "Mon" = [t])
        ∧ (cleanLabel s = none →
            normalizePrefs [("E", [("Mon", PrefValue.one " MORNING ")])] "E" "Mon" = []))
    ∧ ([("Mon", PrefValue.one " MORNING ")].lookup "Mon" = none →
        normalizePrefs [("E", [("Mon", PrefValue.one " MORNING ")])] "E" "Mon" = [])
    ∧ (∀ ss : List String, [("Mon", PrefValue.one " MORNING ")].lookup "Mon" = some (.many ss) →
        normalizePrefs [("E", [("Mon", PrefValue.one " MORNING ")])] "E" "Mon"
          = ss.filterMap cleanLabel
        ∧ (normalizePrefs [("E", [("Mon", PrefValue.one " MORNING ")])] "E" "Mon").length
            ≤ ss.length
        ∧ ((∀ s ∈ ss, cleanLabel s = none) →
            normalizePrefs [("E", [("Mon", PrefValue.one " MORNING ")])] "E" "Mon" = [])) :=
  pref_normalization [("E", [("Mon", PrefValue.one " MORNING ")])] "E" "Mon"
    [("Mon", PrefValue.one " MORNING ")] (by rfl)

/-! ### Equivalence of the two statistics calculators (claim C6) -/

/-- Helper: the scalar accumulation loop equals the initial value plus
the list sum. -/
theorem foldl_add_eq_sum (xs : List Int) :
    ∀ a : Int, xs.foldl (fun s x => s + x) a = a + xs.sum := by
  induction xs with
  | nil => intro a; simp
  | cons x t ih => intro a; simp only [List.foldl_cons, List.sum_cons, ih]; ring

/-- Helper: the OCaml pair accumulation computes (sum, length). -/
theorem foldl_pair_eq (xs : List Int) :
    ∀ a b : Int, xs.foldl (fun p x => (p.1 + x, p.2 + 1)) (a, b)
      = (a + xs.sum, b + xs.length) := by
  induction xs with
  | nil => intro a b; simp
  | cons x t ih =>
    intro a b
    simp only [List.foldl_cons, List.sum_cons, List.length_cons, ih, Prod.mk.injEq]
    constructor <;> (push_cast; ring)

/-- Helper: `wrap32` is the identity on values in the 32-bit signed range. -/
theorem wrap32_eq_self {v : Int} (h1 : -(2 ^ 31) ≤ v) (h2 : v ≤ 2 ^ 31 - 1) :
    wrap32 v = v := by
  unfold wrap32
  rw [Int.emod_eq_of_lt (by linarith) (by linarith)]
  ring

/-- Helper: both calculators compute the same mean, `sum / count`. -/
theorem mean_agree (xs : List Int) (hne : xs ≠ []) :
    ocamlMean xs = some (cMean xs) := by
  match xs, hne with
  | x :: t, _ =>
    simp only [ocamlMean, cMean, foldl_pair_eq, foldl_add_eq_sum]
    congr 1
    push_cast
    ring_nf

/-- Helper: medians agree on odd lengths, and on even lengths whenever
the sum of the two central elements stays in the 32-bit signed range
(the C code adds them as `int`s). -/
theorem median_agree (xs : List Int) (hne : xs ≠ []) :
    (xs.length % 2 = 1 → ocamlMedian xs = some (median_sorted (sortAsc xs)))
    ∧ (xs.length % 2 = 0 →
        -(2 ^ 31) ≤ (sortAsc xs).getD ((sortAsc xs).length / 2 - 1) 0 +
          (sortAsc xs).getD ((sortAsc xs).length / 2) 0 →
        (sortAsc xs).getD ((sortAsc xs).length / 2 - 1) 0 +
          (sortAsc xs).getD ((sortAsc xs).length / 2) 0 ≤ 2 ^ 31 - 1 →
        ocamlMedian xs = some (median_sorted (sortAsc xs))) := by
  have hlen : (sortAsc xs).length = xs.length :=
    (List.perm_insertionSort _ xs).length_eq
  match xs, hne with
  | x :: t, _ =>
    constructor
    · intro hodd
      simp only [ocamlMedian, median_sorted]
      rw [hlen, hodd]
      simp
    · intro heven hlo hhi
      simp only [ocamlMedian, median_sorted]
      rw [hlen, heven]
      simp only [if_neg (by omega : ¬ (0 : Nat) = 1), reduceIte]
      rw [wrap32_eq_self (by rw [hlen] at hlo; exact hlo) (by rw [hlen] at hhi; exact hhi)]

/-- Count lookup in an association list (0 when absent). -/
def lookCount (m : List (Int × Int)) (k : Int) : Int := (m.lookup k).getD 0

/-- Keys pairwise strictly ascending — the `IntMap` bindings invariant,
also the shape of a run-length encoding of a sorted list. -/
abbrev KeysSorted (m : List (Int × Int)) : Prop := m.Pairwise (fun p q => p.1 < q.1)

/-- Helper: `lookCount` on the empty list. -/
theorem lookCount_nil (k : Int) : lookCount [] k = 0 := rfl

/-- Helper: `lookCount` at the head key. -/
theorem lookCount_cons_self (k c : Int) (t : List (Int × Int)) :
    lookCount ((k, c) :: t) k = c := by
  simp [lookCount, List.lookup]

/-- Helper: `lookCount` skips a head with a different key. -/
theorem lookCount_cons_ne {k k0 : Int} (c : Int) (t : List (Int × Int)) (h : k ≠ k0) :
    lookCount ((k0, c) :: t) k = lookCount t k := by
  simp [lookCount, List.lookup, beq_eq_false_iff_ne.mpr h]

/-- Helper: a key distinct from every stored key is absent. -/
theorem lookCount_eq_zero (m : List (Int × Int)) (k : Int)
    (h : ∀ p ∈ m, p.1 ≠ k) : lookCount m k = 0 := by
  induction m with
  | nil => rfl
  | cons p t ih =>
    obtain ⟨k0, c0⟩ := p
    rw [lookCount_cons_ne c0 t (fun he => h (k0, c0) (by simp) (by simp [he]))]
    exact ih (fun q hq => h q (List.mem_cons_of_mem _ hq))

/-- Helper: keys of `imUpdate x m` are `x` or keys of `m`. -/
theorem imUpdate_keys (x : Int) (m : List (Int × Int)) :
    ∀ p ∈ imUpdate x m, p.1 = x ∨ p.1 ∈ m.map Prod.fst := by
  induction m with
  | nil =>
    intro p hp
    simp only [imUpdate, List.mem_singleton] at hp
    subst hp
    exact Or.inl rfl
  | cons q t ih =>
    obtain ⟨k, c⟩ := q
    intro p hp
    simp only [imUpdate] at hp
    rcases lt_trichotomy x k with h1 | h1 | h1
    · rw [if_pos h1] at hp
      simp only [List.mem_cons] at hp
      rcases hp with hp | hp | hp
      · subst hp; exact Or.inl rfl
      · subst hp; exact Or.inr (by simp)
      · exact Or.inr (by
          simp only [List.map_cons, List.mem_cons]
          exact Or.inr (List.mem_map_of_mem _ hp))
    · rw [if_neg (by omega), if_pos h1] at hp
      simp only [List.mem_cons] at hp
      rcases hp with hp | hp
      · subst hp; exact Or.inr (by simp)
      · exact Or.inr (by
          simp only [List.map_cons, List.mem_cons]
          exact Or.inr (List.mem_map_of_mem _ hp))
    · rw [if_neg (by omega), if_neg (by omega)] at hp
      simp only [List.mem_cons] at hp
      rcases hp with hp | hp
      · subst hp; exact Or.inr (by simp)
      · rcases ih p hp with h | h
        · exact Or.inl h
        · exact Or.inr (by simp only [List.map_cons, List.mem_cons]; exact Or.inr h)

/-- Helper: `imUpdate` preserves the sorted-keys invariant. -/
theorem imUpdate_keysSorted (x : Int) (m : List (Int × Int)) (h : KeysSorted m) :
    KeysSorted (imUpdate x m) := by
  induction m with
  | nil => simp [imUpdate]
  | cons q t ih =>
    obtain ⟨k, c⟩ := q
    obtain ⟨hk, ht⟩ := List.pairwise_cons.mp h
    simp only [imUpdate]
    rcases lt_trichotomy x k with h1 | h1 | h1
    · rw [if_pos h1]
      refine List.pairwise_cons.mpr ⟨?_, List.pairwise_cons.mpr ⟨hk, ht⟩⟩
      intro q hq
      rcases List.mem_cons.mp hq with hq | hq
      · subst hq; exact h1
      · exact lt_trans h1 (hk q hq)
    · rw [if_neg (by omega), if_pos h1]
      exact List.pairwise_cons.mpr ⟨hk, ht⟩
    · rw [if_neg (by omega), if_neg (by omega)]
      refine List.pairwise_cons.mpr ⟨?_, ih ht⟩
      intro q hq
      rcases imUpdate_keys x t q hq with he | he
      · simp only [he]; omega
      · simp only [List.mem_map] at he
        obtain ⟨r, hr, he⟩ := he
        simp only [← he]
        exact hk r hr

/-- Helper: `imUpdate` preserves positivity of all counts. -/
theorem imUpdate_pos (x : Int) (m : List (Int × Int)) (h : ∀ p ∈ m, 0 < p.2) :
    ∀ p ∈ imUpdate x m, 0 < p.2 := by
  induction m with
  | nil =>
    intro p hp
    simp only [imUpdate, List.mem_singleton] at hp
    subst hp
    norm_num
  | cons q t ih =>
    obtain ⟨k, c⟩ := q
    intro p hp
    simp only [imUpdate] at hp
    rcases lt_trichotomy x k with h1 | h1 | h1
    · rw [if_pos h1] at hp
      simp only [List.mem_cons] at hp
      rcases hp with hp | hp | hp
      · subst hp; norm_num
      · subst hp; exact h (k, c) (by simp)
      · exact h p (List.mem_cons_of_mem _ hp)
    · rw [if_neg (by omega), if_pos h1] at hp
      simp only [List.mem_cons] at hp
      rcases hp with hp | hp
      · subst hp
        have hc := h (k, c) (by simp)
        simp only at hc ⊢
        omega
      · exact h p (List.mem_cons_of_mem _ hp)
    · rw [if_neg (by omega), if_neg (by omega)] at hp
      simp only [List.mem_cons] at hp
      rcases hp with hp | hp
      · subst hp; exact h (k, c) (by simp)
      · exact ih (fun q hq => h q (List.mem_cons_of_mem _ hq)) p hp

/-- Helper: `imUpdate x` adds exactly one to the stored count of `x`
and leaves every other count unchanged. -/
theorem imUpdate_look (x : Int) (m : List (Int × Int)) (h : KeysSorted m) (k : Int) :
    lookCount (imUpdate x m) k = lookCount m k + (if k = x then 1 else 0) := by
  induction m with
  | nil =>
    by_cases hk : k = x
    · subst hk
      rw [if_pos rfl]
      simp only [imUpdate, lookCount_nil, lookCount_cons_self, zero_add]
    · rw [if_neg hk]
      simp only [imUpdate, lookCount_nil, add_zero]
      exact lookCount_cons_ne 1 [] hk
  | cons q t ih =>
    obtain ⟨k0, c0⟩ := q
    obtain ⟨hk0, ht⟩ := List.pairwise_cons.mp h
    simp only [imUpdate]
    rcases lt_trichotomy x k0 with h1 | h1 | h1
    · rw [if_pos h1]
      by_cases hk : k = x
      · subst hk
        rw [if_pos rfl, lookCount_cons_self]
        have hz : lookCount ((k0, c0) :: t) k = 0 := by
          refine lookCount_eq_zero _ _ ?_
          intro p hp
          rcases List.mem_cons.mp hp with hp | hp
          · subst hp; simp only; omega
          · have := hk0 p hp; simp only at this ⊢; omega
        rw [hz]
        norm_num
      · rw [if_neg hk, lookCount_cons_ne _ _ hk, add_zero]
    · rw [if_neg (by omega), if_pos h1]
      subst h1
      by_cases hk : k = x
      · subst hk
        rw [if_pos rfl, lookCount_cons_self, lookCount_cons_self]
      · rw [if_neg hk, lookCount_cons_ne _ _ hk, lookCount_cons_ne _ _ hk, add_zero]
    · rw [if_neg (by omega), if_neg (by omega)]
      by_cases hk : k = k0
      · subst hk
        rw [lookCount_cons_self, lookCount_cons_self, if_neg (by omega), add_zero]
      · rw [lookCount_cons_ne _ _ hk, lookCount_cons_ne _ _ hk]
        exact ih ht

/-- Helper: `freq_map` keys stay sorted. -/
theorem freqMap_keysSorted (xs : List Int) : KeysSorted (freqMap xs) := by
  suffices h : ∀ m, KeysSorted m → KeysSorted (xs.foldl (fun m x => imUpdate x m) m) from
    h [] (by simp)
  induction xs with
  | nil => intro m hm; exact hm
  | cons x t ih => intro m hm; exact ih _ (imUpdate_keysSorted x m hm)

/-- Helper: `freq_map` counts are positive. -/
theorem freqMap_pos (xs : List Int) : ∀ p ∈ freqMap xs, 0 < p.2 := by
  suffices h : ∀ m, (∀ p ∈ m, 0 < p.2) →
      ∀ p ∈ xs.foldl (fun m x => imUpdate x m) m, 0 < p.2 from
    h [] (by simp)
  induction xs with
  | nil => intro m hm; exact hm
  | cons x t ih => intro m hm; exact ih _ (imUpdate_pos x m hm)

/-- Helper: `freq_map` stores exactly the multiplicities of the input. -/
theorem freqMap_look (xs : List Int) (k : Int) :
    lookCount (freqMap xs) k = (xs.count k : Int) := by
  suffices h : ∀ m, KeysSorted m →
      lookCount (xs.foldl (fun m x => imUpdate x m) m) k
        = lookCount m k + (xs.count k : Int) by
    simpa [lookCount] using h [] (by simp)
  induction xs with
  | nil => intro m hm; simp
  | cons x t ih =>
    intro m hm
    simp only [List.foldl_cons]
    rw [ih _ (imUpdate_keysSorted x m hm), imUpdate_look x m hm k, List.count_cons]
    by_cases hk : k = x
    · subst hk
      simp only [beq_self_eq_true, if_pos rfl, if_pos (rfl : k = k)]
      push_cast
      ring
    · rw [if_neg hk,
        show (x == k) = false from beq_eq_false_iff_ne.mpr (fun he => hk he.symm)]
      simp only [Bool.false_eq_true, if_neg, if_false]
      push_cast
      ring

/-- Run-length encoding of a list: the runs the `modes_from_sorted`
`while` loop walks, with the same count expression the loop computes. -/
def rleInt : List Int → List (Int × Int)
  | [] => []
  | v :: rest =>
    (v, ((1 + (rest.takeWhile (· = v)).length : Nat) : Int))
      :: rleInt (rest.dropWhile (· = v))
  termination_by l => l.length
  decreasing_by
    simp only [List.length_cons]
    exact Nat.lt_succ_of_le (dropWhile_len_le _ _)

/-- Helper: in a sorted list `v :: rest`, everything after the leading
run of `v`s is strictly greater than `v`. -/
theorem mem_dropWhile_gt (v : Int) (rest : List Int)
    (h : List.Sorted (· ≤ ·) (v :: rest)) :
    ∀ y ∈ rest.dropWhile (· = v), v < y := by
  induction rest with
  | nil => intro y hy; simp at hy
  | cons r rs ih =>
    obtain ⟨hle, htail⟩ := List.sorted_cons.mp h
    intro y hy
    by_cases hr : r = v
    · rw [List.dropWhile_cons_of_pos (by simpa using hr)] at hy
      refine ih ?_ y hy
      rw [List.sorted_cons]
      exact ⟨fun b hb => hle b (List.mem_cons_of_mem _ hb), (List.sorted_cons.mp htail).2⟩
    · rw [List.dropWhile_cons_of_neg (by simpa using hr)] at hy
      have hvr : v < r :=
        lt_of_le_of_ne (hle r (by simp)) (fun he => hr he.symm)
      rcases List.mem_cons.mp hy with hy | hy
      · subst hy; exact hvr
      · exact lt_of_lt_of_le hvr ((List.sorted_cons.mp htail).1 y hy)

/-- Helper: every key of the run-length encoding occurs in the list. -/
theorem rleInt_keys_mem : ∀ xs : List Int, ∀ p ∈ rleInt xs, p.1 ∈ xs := by
  intro xs
  induction xs using rleInt.induct with
  | case1 => intro p hp; simp [rleInt] at hp
  | case2 v rest ih =>
    intro p hp
    rw [rleInt] at hp
    rcases List.mem_cons.mp hp with hp | hp
    · subst hp; simp
    · exact List.mem_cons_of_mem _ ((List.dropWhile_sublist _).mem (ih p hp))

/-- Helper: run counts are positive. -/
theorem rleInt_pos : ∀ xs : List Int, ∀ p ∈ rleInt xs, 0 < p.2 := by
  intro xs
  induction xs using rleInt.induct with
  | case1 => intro p hp; simp [rleInt] at hp
  | case2 v rest ih =>
    intro p hp
    rw [rleInt] at hp
    rcases List.mem_cons.mp hp with hp | hp
    · subst hp; simp only; positivity
    · exact ih p hp

/-- Helper: the run-length encoding of a sorted list has strictly
ascending keys. -/
theorem rleInt_keysSorted : ∀ xs : List Int, List.Sorted (· ≤ ·) xs →
    KeysSorted (rleInt xs) := by
  intro xs
  induction xs using rleInt.induct with
  | case1 => intro _; simp [rleInt]
  | case2 v rest ih =>
    intro h
    rw [rleInt]
    refine List.pairwise_cons.mpr ⟨?_, ?_⟩
    · intro p hp
      exact mem_dropWhile_gt v rest h p.1 (rleInt_keys_mem _ p hp)
    · exact ih ((List.sorted_cons.mp h).2.sublist (List.dropWhile_sublist _))

/-- Helper: every element of the leading run equals its value. -/
theorem mem_takeWhile_eq (v : Int) (rest : List Int) :
    ∀ y ∈ rest.takeWhile (· = v), y = v := by
  intro y hy
  simpa using List.mem_takeWhile_imp hy

/-- Helper: the run-length encoding of a sorted list stores exactly the
multiplicities of the list. -/
theorem rleInt_look : ∀ xs : List Int, List.Sorted (· ≤ ·) xs → ∀ k,
    lookCount (rleInt xs) k = (xs.count k : Int) := by
  intro xs
  induction xs using rleInt.induct with
  | case1 => intro _ k; simp [rleInt, lookCount]
  | case2 v rest ih =>
    intro h k
    rw [rleInt]
    have hdecomp := List.takeWhile_append_dropWhile (· = v) rest
    by_cases hk : k = v
    · subst hk
      rw [lookCount_cons_self]
      have htw : (rest.takeWhile (· = k)).count k = (rest.takeWhile (· = k)).length := by
        refine List.count_eq_length.mpr ?_
        intro b hb
        exact (mem_takeWhile_eq k rest b hb).symm ▸ rfl
      have hdw : (rest.dropWhile (· = k)).count k = 0 := by
        refine List.count_eq_zero.mpr ?_
        intro hmem
        exact absurd rfl (ne_of_gt (mem_dropWhile_gt k rest h k hmem))
      have hcnt : (k :: rest).count k = rest.count k + 1 := by
        rw [List.count_cons]
        simp
      have hrest : rest.count k = (rest.takeWhile (· = k)).length := by
        conv_lhs => rw [← hdecomp]
        rw [List.count_append, htw, hdw, add_zero]
      rw [hcnt, hrest]
      push_cast
      ring
    · rw [lookCount_cons_ne _ _ hk]
      have hsorted : List.Sorted (· ≤ ·) (rest.dropWhile (· = v)) :=
        (List.sorted_cons.mp h).2.sublist (List.dropWhile_sublist _)
      rw [ih hsorted k]
      have htw0 : (rest.takeWhile (· = v)).count k = 0 := by
        refine List.count_eq_zero.mpr ?_
        intro hmem
        exact hk (mem_takeWhile_eq v rest k hmem)
      have h1 : (v :: rest).count k = rest.count k := by
        rw [List.count_cons, beq_eq_false_iff_ne.mpr (fun he => hk he.symm)]
        simp
      have h2 : rest.count k = (rest.dropWhile (· = v)).count k := by
        conv_lhs => rw [← hdecomp]
        rw [List.count_append, htw0, zero_add]
      rw [h1, h2]

/-- Helper: two key-sorted association lists with positive counts and
identical lookups are equal. -/
theorem assoc_ext : ∀ (L1 L2 : List (Int × Int)), KeysSorted L1 → KeysSorted L2 →
    (∀ p ∈ L1, 0 < p.2) → (∀ p ∈ L2, 0 < p.2) →
    (∀ k, lookCount L1 k = lookCount L2 k) → L1 = L2 := by
  intro L1
  induction L1 with
  | nil =>
    intro L2 _ _ _ hpos2 hlook
    cases L2 with
    | nil => rfl
    | cons q t2 =>
      obtain ⟨k2, c2⟩ := q
      exfalso
      have h := hlook k2
      rw [lookCount_nil, lookCount_cons_self] at h
      have := hpos2 (k2, c2) (by simp)
      simp only at this
      omega
  | cons p t1 ih =>
    obtain ⟨k1, c1⟩ := p
    intro L2 hs1 hs2 hpos1 hpos2 hlook
    obtain ⟨hk1, ht1⟩ := List.pairwise_cons.mp hs1
    cases L2 with
    | nil =>
      exfalso
      have h := hlook k1
      rw [lookCount_nil, lookCount_cons_self] at h
      have := hpos1 (k1, c1) (by simp)
      simp only at this
      omega
    | cons q t2 =>
      obtain ⟨k2, c2⟩ := q
      obtain ⟨hk2, ht2⟩ := List.pairwise_cons.mp hs2
      have hkeq : k1 = k2 := by
        by_contra hne
        rcases lt_or_gt_of_ne hne with hlt | hgt
        · have h := hlook k1
          rw [lookCount_cons_self,
            lookCount_cons_ne _ _ (by omega : k1 ≠ k2),
            lookCount_eq_zero t2 k1
              (fun p hp => by have := hk2 p hp; simp only at this; omega)] at h
          have := hpos1 (k1, c1) (by simp)
          simp only at this
          omega
        · have h := hlook k2
          rw [lookCount_cons_self,
            lookCount_cons_ne _ _ (by omega : k2 ≠ k1),
            lookCount_eq_zero t1 k2
              (fun p hp => by have := hk1 p hp; simp only at this; omega)] at h
          have := hpos2 (k2, c2) (by simp)
          simp only at this
          omega
      subst hkeq
      have hceq : c1 = c2 := by
        have h := hlook k1
        rwa [lookCount_cons_self, lookCount_cons_self] at h
      subst hceq
      have htail : t1 = t2 := by
        refine ih t2 ht1 ht2
          (fun p hp => hpos1 p (List.mem_cons_of_mem _ hp))
          (fun p hp => hpos2 p (List.mem_cons_of_mem _ hp)) ?_
        intro k
        by_cases hk : k = k1
        · subst hk
          rw [lookCount_eq_zero t1 k
              (fun p hp => by have := hk1 p hp; simp only at this; omega),
            lookCount_eq_zero t2 k
              (fun p hp => by have := hk2 p hp; simp only at this; omega)]
        · have h := hlook k
          rwa [lookCount_cons_ne _ _ hk, lookCount_cons_ne _ _ hk] at h
      rw [htail]

/-- Helper: the run-length encoding of the sorted copy is exactly the
OCaml frequency map — the shared backbone of both mode computations. -/
theorem rle_sortAsc_eq_freqMap (xs : List Int) :
    rleInt (sortAsc xs) = freqMap xs := by
  refine assoc_ext _ _
    (rleInt_keysSorted _ (List.sorted_insertionSort _ xs))
    (freqMap_keysSorted xs)
    (rleInt_pos _) (freqMap_pos xs) ?_
  intro k
  simp only [sortAsc]
  rw [rleInt_look _ (List.sorted_insertionSort _ xs) k, freqMap_look xs k]
  congr 1
  exact (List.perm_insertionSort _ xs).count_eq k

/-- The run-selection loop at the level of (value, count) pairs: the
state machine of `modes_from_sorted` once runs are made explicit. -/
def selGo (maxf : Int) (acc : List Int) : List (Int × Int) → Int × List Int
  | [] => (maxf, acc)
  | (v, c) :: t =>
    if maxf < c then selGo c [v] t
    else if c = maxf then selGo maxf (acc ++ [v]) t
    else selGo maxf acc t

/-- Helper: the C loop is the run-selection loop over the run-length
encoding. -/
theorem modesGo_eq_selGo : ∀ (n : Nat) (xs : List Int), xs.length ≤ n →
    ∀ maxf acc, modesGo maxf acc xs = selGo maxf acc (rleInt xs) := by
  intro n
  induction n with
  | zero =>
    intro xs hlen maxf acc
    rw [List.length_eq_zero.mp (Nat.le_zero.mp hlen)]
    simp [modesGo, rleInt, selGo]
  | succ n ih =>
    intro xs hlen maxf acc
    cases xs with
    | nil => simp [modesGo, rleInt, selGo]
    | cons v rest =>
      rw [modesGo, rleInt, selGo]
      have hlen' : (rest.dropWhile (· = v)).length ≤ n := by
        have := dropWhile_len_le (· = v) rest
        simp only [List.length_cons] at hlen
        omega
      split_ifs with h1 h2 <;> exact ih _ hlen' _ _

/-- Helper: the maximum fold never drops below its seed. -/
theorem foldl_max_le_init : ∀ (L : List (Int × Int)) (a : Int),
    a ≤ L.foldl (fun x p => max p.2 x) a := by
  intro L
  induction L with
  | nil => intro a; simp
  | cons p t ih =>
    intro a
    simp only [List.foldl_cons]
    exact le_trans (le_max_right p.2 a) (ih (max p.2 a))

/-- Helper: the maximum fold dominates every stored count. -/
theorem foldl_max_mem_le : ∀ (L : List (Int × Int)) (a : Int) (p : Int × Int), p ∈ L →
    p.2 ≤ L.foldl (fun x q => max q.2 x) a := by
  intro L
  induction L with
  | nil => intro a p hp; simp at hp
  | cons q t ih =>
    intro a p hp
    simp only [List.foldl_cons]
    rcases List.mem_cons.mp hp with hp | hp
    · subst hp
      exact le_trans (le_max_left p.2 a) (foldl_max_le_init t (max p.2 a))
    · exact ih (max q.2 a) p hp

/-- Helper: the first component of the selection loop is the maximum
fold — the exact expression the OCaml `IntMap.fold … max` computes. -/
theorem selGo_maxf : ∀ (L : List (Int × Int)) (maxf : Int) (acc : List Int),
    (selGo maxf acc L).1 = L.foldl (fun a p => max p.2 a) maxf := by
  intro L
  induction L with
  | nil => intro maxf acc; rfl
  | cons q t ih =>
    intro maxf acc
    obtain ⟨v, c⟩ := q
    simp only [selGo, List.foldl_cons]
    split_ifs with h1 h2
    · rw [ih c [v], max_eq_left (le_of_lt h1)]
    · subst h2
      rw [ih, max_self]
    · rw [ih, max_eq_right (by omega)]

/-- Helper: the second component of the selection loop collects, in
order, the values whose count equals the overall maximum — discarding
the accumulator exactly when the maximum strictly exceeds the seed. -/
theorem selGo_modes : ∀ (L : List (Int × Int)) (maxf : Int) (acc : List Int) (M : Int),
    M = L.foldl (fun a p => max p.2 a) maxf →
    (selGo maxf acc L).2 =
      if maxf < M then (L.filter (fun p => p.2 == M)).map Prod.fst
      else acc ++ (L.filter (fun p => p.2 == M)).map Prod.fst := by
  intro L
  induction L with
  | nil =>
    intro maxf acc M hM
    subst hM
    simp [selGo]
  | cons q t ih =>
    intro maxf acc M hM
    obtain ⟨v, c⟩ := q
    simp only [List.foldl_cons] at hM
    have hcM : c ≤ M := hM ▸ le_trans (le_max_left c maxf) (foldl_max_le_init t (max c maxf))
    have hmM : maxf ≤ M := hM ▸ le_trans (le_max_right c maxf) (foldl_max_le_init t (max c maxf))
    simp only [selGo]
    by_cases h1 : maxf < c
    · -- maxf < c: reset to [v]
      rw [if_pos h1]
      have hM' : M = t.foldl (fun a p => max p.2 a) c := by
        rwa [max_eq_left (le_of_lt h1)] at hM
      have hmlt : maxf < M := lt_of_lt_of_le h1 hcM
      rw [ih c [v] M hM', if_pos hmlt, List.filter_cons]
      by_cases hc : c = M
      · rw [if_neg (by omega : ¬ c < M),
          if_pos (show ((v, c).2 == M) = true by simp [hc])]
        simp
      · rw [if_pos (by omega : c < M),
          if_neg (show ¬ ((v, c).2 == M) = true by simp [hc])]
    · rw [if_neg h1]
      by_cases h2 : c = maxf
      · -- c = maxf: append v
        rw [if_pos h2]
        subst h2
        have hM' : M = t.foldl (fun a p => max p.2 a) c := by rwa [max_self] at hM
        rw [ih c (acc ++ [v]) M hM']
        by_cases hlt : c < M
        · simp only [if_pos hlt]
          rw [List.filter_cons,
            if_neg (show ¬ ((v, c).2 == M) = true by simp; omega)]
        · have hMe : M = c := le_antisymm (by omega) hcM
          simp only [if_neg hlt]
          rw [List.filter_cons,
            if_pos (show ((v, c).2 == M) = true by simp [hMe])]
          simp
      · -- c < maxf: skip
        rw [if_neg h2]
        have hlt : c < maxf := by
          rcases lt_trichotomy c maxf with h | h | h
          · exact h
          · exact absurd h h2
          · exact absurd h h1
        have hM' : M = t.foldl (fun a p => max p.2 a) maxf := by
          rwa [max_eq_right (le_of_lt hlt)] at hM
        rw [ih maxf acc M hM', List.filter_cons,
          if_neg (show ¬ ((v, c).2 == M) = true by simp; omega)]

/-- Helper: the C mode computation, run on the sorted copy, equals the
run-selection loop over the OCaml frequency map. -/
theorem modesFromSorted_sortAsc (xs : List Int) :
    modesFromSorted (sortAsc xs) = selGo 0 [] (freqMap xs) := by
  unfold modesFromSorted
  rw [modesGo_eq_selGo (sortAsc xs).length (sortAsc xs) le_rfl 0 [],
    rle_sortAsc_eq_freqMap]

/-- Helper: both calculators compute the same mode set (already sorted
ascending) and the same maximal frequency. -/
theorem modes_agree (xs : List Int) (hne : xs ≠ []) :
    ocamlModes xs = some ((modesFromSorted (sortAsc xs)).2)
    ∧ ocamlMaxf xs = (modesFromSorted (sortAsc xs)).1 := by
  have hb : modesFromSorted (sortAsc xs) = selGo 0 [] (freqMap xs) :=
    modesFromSorted_sortAsc xs
  obtain ⟨x, hx⟩ : ∃ x, x ∈ xs := by
    cases xs with
    | nil => exact absurd rfl hne
    | cons a t => exact ⟨a, by simp⟩
  obtain ⟨p0, hp0⟩ : ∃ p, p ∈ freqMap xs := by
    cases hFm : freqMap xs with
    | nil =>
      have h0 := freqMap_look xs x
      rw [hFm, lookCount_nil] at h0
      have hc0 : xs.count x = 0 := by exact_mod_cast h0.symm
      exact absurd hx (List.count_eq_zero.mp hc0)
    | cons a t => exact ⟨a, by simp⟩
  have hMpos : 0 < (freqMap xs).foldl (fun a p => max p.2 a) 0 :=
    lt_of_lt_of_le (freqMap_pos xs p0 hp0) (foldl_max_mem_le (freqMap xs) 0 p0 hp0)
  have hCmodes : (selGo 0 [] (freqMap xs)).2 =
      ((freqMap xs).filter
        (fun p => p.2 == (freqMap xs).foldl (fun a p => max p.2 a) 0)).map Prod.fst := by
    rw [selGo_modes (freqMap xs) 0 [] _ rfl, if_pos hMpos]
  have hsorted : List.Sorted (· ≤ ·)
      (((freqMap xs).filter
        (fun p => p.2 == (freqMap xs).foldl (fun a p => max p.2 a) 0)).map Prod.fst) := by
    have hkeys : KeysSorted (freqMap xs) := freqMap_keysSorted xs
    have hfk : List.Pairwise (fun p q : Int × Int => p.1 < q.1)
        ((freqMap xs).filter
          (fun p => p.2 == (freqMap xs).foldl (fun a p => max p.2 a) 0)) :=
      List.Pairwise.sublist (List.filter_sublist _) hkeys
    rw [List.Sorted, List.pairwise_map]
    exact hfk.imp (fun h => le_of_lt h)
  have hid : sortAsc (((freqMap xs).filter
        (fun p => p.2 == (freqMap xs).foldl (fun a p => max p.2 a) 0)).map Prod.fst)
      = ((freqMap xs).filter
        (fun p => p.2 == (freqMap xs).foldl (fun a p => max p.2 a) 0)).map Prod.fst :=
    List.Sorted.insertionSort_eq hsorted
  have hO : ocamlModes xs = some (sortAsc (((freqMap xs).filter
      (fun p => p.2 == (freqMap xs).foldl (fun a p => max p.2 a) 0)).map Prod.fst)) := by
    match xs, hne with
    | y :: t, _ => rfl
  constructor
  · rw [hO, hid, hb, hCmodes]
  · rw [hb, selGo_maxf (freqMap xs) 0 []]
    rfl

/-- Claim C6, counterexample: on `[2147483647, 2147483647]` — two
values inside the 32-bit signed range — the functional calculator's
median is `2147483647` while the array-based one computes `-1`, because
`median_sorted` adds the two central elements as 32-bit `int`s and the
sum wraps. -/
theorem stats_calculators_cex :
    ocamlMedian [2147483647, 2147483647] = some ((2147483647 : ℚ))
    ∧ median_sorted (sortAsc [2147483647, 2147483647]) = -1
    ∧ ((2147483647 : ℚ) ≠ -1) := by
  have hs : sortAsc [2147483647, 2147483647] = [2147483647, 2147483647] := by decide
  refine ⟨?_, ?_, by norm_num⟩
  · simp only [ocamlMedian, hs]
    norm_num
  · rw [hs]
    norm_num [median_sorted, wrap32]

/-- Helper: the OCaml argument parser preserves the argument count. -/
theorem ocamlParseArgs_length : ∀ (args : List String) (l : List Int),
    ocamlParseArgs args = .ok l → l.length = args.length := by
  intro args
  induction args with
  | nil =>
    intro l h
    cases h
    rfl
  | cons t rest ih =>
    intro l h
    simp only [ocamlParseArgs] at h
    cases hp : ocamlIntOfStringOpt t with
    | none => rw [hp] at h; cases h
    | some v =>
      rw [hp] at h
      cases hr : ocamlParseArgs rest with
      | error e => rw [hr] at h; cases h
      | ok l' =>
        rw [hr] at h
        simp only [Except.map] at h
        cases h
        simp [ih l' hr]

/-- Helper: the C argument parser preserves the argument count. -/
theorem cParseArgs_length : ∀ (args : List String) (l : List Int),
    cParseArgs args = .ok l → l.length = args.length := by
  intro args
  induction args with
  | nil =>
    intro l h
    cases h
    rfl
  | cons t rest ih =>
    intro l h
    simp only [cParseArgs] at h
    cases hp : cParseIntStrict t with
    | none => rw [hp] at h; cases h
    | some v =>
      rw [hp] at h
      cases hr : cParseArgs rest with
      | error e => rw [hr] at h; cases h
      | ok l' =>
        rw [hr] at h
        simp only [Except.map] at h
        cases h
        simp [ih l' hr]

/-- Claim C6, amended: for every nonempty integer list the two
calculators report the same count (both report the argument count, by
definition), the same mean `sum/count`, the same ascending mode set and
the same maximal frequency; the medians agree on every odd-length list,
and on even-length lists whenever the sum of the two central elements
fits the 32-bit signed range (outside it the C `int` addition wraps —
see the counterexample).  On `[1,2,2,3,4,4,4,5]` both yield mean 3.125,
median 3.5, modes `[4]` with frequency 3; on `[1,2,3,4]` both yield
median 2.5 with all four values tied as modes. -/
theorem stats_calculators_agree (xs : List Int) (hne : xs ≠ []) :
    ocamlMean xs = some (cMean xs)
    ∧ (xs.length % 2 = 1 → ocamlMedian xs = some (median_sorted (sortAsc xs)))
    ∧ (xs.length % 2 = 0 →
        -(2 ^ 31) ≤ (sortAsc xs).getD ((sortAsc xs).length / 2 - 1) 0 +
          (sortAsc xs).getD ((sortAsc xs).length / 2) 0 →
        (sortAsc xs).getD ((sortAsc xs).length / 2 - 1) 0 +
          (sortAsc xs).getD ((sortAsc xs).length / 2) 0 ≤ 2 ^ 31 - 1 →
        ocamlMedian xs = some (median_sorted (sortAsc xs)))
    ∧ ocamlModes xs = some ((modesFromSorted (sortAsc xs)).2)
    ∧ ocamlMaxf xs = (modesFromSorted (sortAsc xs)).1
    ∧ (ocamlMean [1, 2, 2, 3, 4, 4, 4, 5] = some 3.125
        ∧ cMean [1, 2, 2, 3, 4, 4, 4, 5] = 3.125
        ∧ ocamlMedian [1, 2, 2, 3, 4, 4, 4, 5] = some 3.5
        ∧ median_sorted (sortAsc [1, 2, 2, 3, 4, 4, 4, 5]) = 3.5
        ∧ ocamlModes [1, 2, 2, 3, 4, 4, 4, 5] = some [4]
        ∧ modesFromSorted (sortAsc [1, 2, 2, 3, 4, 4, 4, 5]) = (3, [4])
        ∧ ocamlMedian [1, 2, 3, 4] = some 2.5
        ∧ median_sorted (sortAsc [1, 2, 3, 4]) = 2.5
        ∧ ocamlModes [1, 2, 3, 4] = some [1, 2, 3, 4]
        ∧ (modesFromSorted (sortAsc [1, 2, 3, 4])).2 = [1, 2, 3, 4])
    ∧ (∀ (argv0 : String) (args : List String) (r1 : OReport) (r2 : CReport),
        (ocamlMain argv0 args).stdout = some r1 → (cMain argv0 args).stdout = some r2 →
        r1.count = args.length ∧ r2.count = args.length) := by
  have hs8 : sortAsc [1, 2, 2, 3, 4, 4, 4, 5] = [1, 2, 2, 3, 4, 4, 4, 5] := by decide
  have hs4 : sortAsc [1, 2, 3, 4] = [1, 2, 3, 4] := by decide
  refine ⟨mean_agree xs hne, (median_agree xs hne).1, (median_agree xs hne).2,
    (modes_agree xs hne).1, (modes_agree xs hne).2,
    ⟨?_, ?_, ?_, ?_, ?_, ?_, ?_, ?_, ?_, ?_⟩, ?_⟩
  · norm_num [ocamlMean]
  · norm_num [cMean]
  · simp only [ocamlMedian, hs8]
    norm_num
  · rw [hs8]; norm_num [median_sorted, wrap32]
  · decide
  · rw [modesFromSorted_sortAsc]; decide
  · simp only [ocamlMedian, hs4]
    norm_num [wrap32]
  · rw [hs4]; norm_num [median_sorted, wrap32]
  · decide
  · rw [modesFromSorted_sortAsc]; decide
  · intro argv0 args r1 r2 h1 h2
    match args with
    | [] => cases h1
    | a :: rest =>
      constructor
      · simp only [ocamlMain] at h1
        cases ho : ocamlParseArgs (a :: rest) with
        | error t => rw [ho] at h1; cases h1
        | ok data =>
          rw [ho] at h1
          simp only [Option.some.injEq] at h1
          rw [← h1]
          exact ocamlParseArgs_length _ data ho
      · simp only [cMain] at h2
        cases hc : cParseArgs (a :: rest) with
        | error t => rw [hc] at h2; cases h2
        | ok data =>
          rw [hc] at h2
          simp only [Option.some.injEq] at h2
          rw [← h2]
          exact cParseArgs_length _ data hc

/-- Claim C6 witness: the agreement at the concrete input
`[1,2,2,3,4,4,4,5]`. -/
theorem stats_calculators_agree_witness :
    ocamlMean [1, 2, 2, 3, 4, 4, 4, 5] = some (cMean [1, 2, 2, 3, 4, 4, 4, 5])
    ∧ ocamlModes [1, 2, 2, 3, 4, 4, 4, 5]
        = some ((modesFromSorted (sortAsc [1, 2, 2, 3, 4, 4, 4, 5])).2)
    ∧ ocamlMaxf [1, 2, 2, 3, 4, 4, 4, 5]
        = (modesFromSorted (sortAsc [1, 2, 2, 3, 4, 4, 4, 5])).1 :=
  ⟨(stats_calculators_agree [1, 2, 2, 3, 4, 4, 4, 5] (by decide)).1,
   (stats_calculators_agree [1, 2, 2, 3, 4, 4, 4, 5] (by decide)).2.2.2.1,
   (stats_calculators_agree [1, 2, 2, 3, 4, 4, 4, 5] (by decide)).2.2.2.2.1⟩

/-! ### Scheduler invariants (claims C1 and C4)

The per-state invariant ties the redundant bookkeeping of
`schedule_employees` together: the shift lists respect the capacity cap,
`assigned_on_day` holds exactly the employees occurring in that day's
lists (each at most once), and `days_worked` counts the week's
occurrences. -/

/-- Helper: a mapped sum is unchanged under pointwise-equal functions. -/
theorem sum_map_congr_str {l : List String} {f g : String → Nat}
    (h : ∀ x ∈ l, g x = f x) : (l.map g).sum = (l.map f).sum := by
  induction l with
  | nil => rfl
  | cons a t ih =>
    simp only [List.map_cons, List.sum_cons, h a (by simp)]
    rw [ih (fun x hx => h x (List.mem_cons_of_mem _ hx))]

/-- Helper: a mapped sum grows by exactly one when the function grows by
one at a single element of a duplicate-free list. -/
theorem sum_map_add_one {l : List String} {f g : String → Nat} (s0 : String)
    (hnd : l.Nodup) (hmem : s0 ∈ l)
    (hg : ∀ x ∈ l, g x = f x + (if x = s0 then 1 else 0)) :
    (l.map g).sum = (l.map f).sum + 1 := by
  induction l with
  | nil => simp at hmem
  | cons a t ih =>
    obtain ⟨ha, htl⟩ := List.nodup_cons.mp hnd
    rcases List.mem_cons.mp hmem with he | he
    · subst he
      simp only [List.map_cons, List.sum_cons]
      rw [hg s0 (by simp), if_pos rfl,
        sum_map_congr_str (f := f) (fun x hx => by
          rw [hg x (List.mem_cons_of_mem _ hx), if_neg (fun hxe => ha (by rw [← hxe] at hmem ⊢; exact hx)), add_zero])]
      omega
    · simp only [List.map_cons, List.sum_cons]
      rw [hg a (by simp), if_neg (fun hae => ha (by rw [hae]; exact he)), add_zero,
        ih htl he (fun x hx => hg x (List.mem_cons_of_mem _ hx))]
      omega

/-- Helper: `DAYS` has no duplicates. -/
theorem days_nodup : DAYS.Nodup := by decide

/-- Helper: `SHIFTS` has no duplicates. -/
theorem shifts_nodup : SHIFTS.Nodup := by decide

/-- Frame: `assignEmp` appends to its own slot... -/
theorem assignEmp_sched_self (st : SchedSt) (day shift emp : String) :
    (st.assignEmp day shift emp).sched day shift = st.sched day shift ++ [emp] := by
  simp [SchedSt.assignEmp]

/-- Frame: `assignEmp` leaves every other slot unchanged. -/
theorem assignEmp_sched_other (st : SchedSt) (day shift emp d s : String)
    (h : ¬ (d = day ∧ s = shift)) :
    (st.assignEmp day shift emp).sched d s = st.sched d s := by
  simp only [SchedSt.assignEmp, if_neg h]

/-- `assignEmp` adds one to the assigned employee's count on that day. -/
theorem dayCount_assignEmp_self (st : SchedSt) (day shift emp : String)
    (hshift : shift ∈ SHIFTS) :
    dayCount (st.assignEmp day shift emp).sched day emp
      = dayCount st.sched day emp + 1 := by
  refine sum_map_add_one shift shifts_nodup hshift ?_
  intro s hs
  by_cases hse : s = shift
  · subst hse
    rw [assignEmp_sched_self, if_pos rfl, List.count_append]
    simp
  · rw [assignEmp_sched_other st day shift emp day s (fun hc => hse hc.2),
      if_neg hse, add_zero]

/-- `assignEmp` leaves other employees' day counts unchanged (any day). -/
theorem dayCount_assignEmp_other_emp (st : SchedSt) (day shift emp d e : String)
    (h : e ≠ emp) :
    dayCount (st.assignEmp day shift emp).sched d e = dayCount st.sched d e := by
  refine sum_map_congr_str ?_
  intro s _
  by_cases hc : d = day ∧ s = shift
  · obtain ⟨h1, h2⟩ := hc
    subst h1; subst h2
    rw [assignEmp_sched_self, List.count_append,
      List.count_eq_zero.mpr (show e ∉ [emp] by simp [h]), add_zero]
  · rw [assignEmp_sched_other st day shift emp d s hc]

/-- `assignEmp` leaves every other day's counts unchanged. -/
theorem dayCount_assignEmp_other_day (st : SchedSt) (day shift emp d e : String)
    (h : d ≠ day) :
    dayCount (st.assignEmp day shift emp).sched d e = dayCount st.sched d e := by
  refine sum_map_congr_str ?_
  intro s _
  rw [assignEmp_sched_other st day shift emp d s (fun hc => h hc.1)]

/-- `assignEmp` adds one to the assigned employee's week count. -/
theorem weekCount_assignEmp_self (st : SchedSt) (day shift emp : String)
    (hday : day ∈ DAYS) (hshift : shift ∈ SHIFTS) :
    weekCount (st.assignEmp day shift emp).sched emp
      = weekCount st.sched emp + 1 := by
  refine sum_map_add_one day days_nodup hday ?_
  intro d hd
  by_cases hdd : d = day
  · subst hdd
    rw [dayCount_assignEmp_self st d shift emp hshift, if_pos rfl]
  · rw [dayCount_assignEmp_other_day st day shift emp d emp hdd, if_neg hdd, add_zero]

/-- `assignEmp` leaves other employees' week counts unchanged. -/
theorem weekCount_assignEmp_other (st : SchedSt) (day shift emp e : String)
    (h : e ≠ emp) :
    weekCount (st.assignEmp day shift emp).sched e = weekCount st.sched e := by
  refine sum_map_congr_str ?_
  intro d _
  exact dayCount_assignEmp_other_emp st day shift emp d e h

/-- Frame: the `daysWorked` component of `assignEmp`. -/
theorem assignEmp_daysWorked (st : SchedSt) (day shift emp e : String) :
    (st.assignEmp day shift emp).daysWorked e
      = if e = emp then st.daysWorked e + 1 else st.daysWorked e := rfl

/-- Frame: the `assigned` component of `assignEmp`. -/
theorem assignEmp_assigned (st : SchedSt) (day shift emp d e : String) :
    (st.assignEmp day shift emp).assigned d e
      = if d = day ∧ e = emp then true else st.assigned d e := rfl

/-- The run invariant of `schedule_employees`: capacity caps respected,
`assigned_on_day` mirrors the day counts (each employee at most once per
day), and `days_worked` equals the week count and stays within the
weekly cap. -/
structure SInv (cfg : Config) (st : SchedSt) : Prop where
  cap : ∀ d s, 0 < cfg.max_per_shift → ((st.sched d s).length : Int) ≤ cfg.max_per_shift
  assignT : ∀ d e, st.assigned d e = true → dayCount st.sched d e = 1
  assignF : ∀ d e, st.assigned d e = false → dayCount st.sched d e = 0
  worked : ∀ e, st.daysWorked e = (weekCount st.sched e : Int)
  workedLe : 0 ≤ cfg.max_days_per_employee →
    ∀ e, st.daysWorked e ≤ cfg.max_days_per_employee

/-- The single-assignment operation preserves the invariant, provided the
code's own guards held: the employee was unassigned that day, under the
weekly cap, and the target shift (a real shift of a real day) had spare
capacity. -/
theorem assignEmp_inv {cfg : Config} {st : SchedSt} (day shift emp : String)
    (hInv : SInv cfg st)
    (hday : day ∈ DAYS) (hshift : shift ∈ SHIFTS)
    (hna : st.assigned day emp = false)
    (hwk : st.daysWorked emp < cfg.max_days_per_employee)
    (hcap : 0 < cfg.max_per_shift → ((st.sched day shift).length : Int) < cfg.max_per_shift) :
    SInv cfg (st.assignEmp day shift emp) := by
  refine ⟨?_, ?_, ?_, ?_, ?_⟩
  · intro d s hpos
    by_cases hc : d = day ∧ s = shift
    · obtain ⟨h1, h2⟩ := hc
      subst h1; subst h2
      rw [assignEmp_sched_self]
      have := hcap hpos
      simp only [List.length_append, List.length_cons, List.length_nil]
      push_cast
      omega
    · rw [assignEmp_sched_other st day shift emp d s hc]
      exact hInv.cap d s hpos
  · intro d e hT
    rw [assignEmp_assigned] at hT
    by_cases hc : d = day ∧ e = emp
    · obtain ⟨h1, h2⟩ := hc
      subst h1; subst h2
      rw [dayCount_assignEmp_self st d shift e hshift, hInv.assignF d e hna]
    · rw [if_neg hc] at hT
      have hold := hInv.assignT d e hT
      by_cases he : e = emp
      · subst he
        have hd : d ≠ day := fun hdd => hc ⟨hdd, rfl⟩
        rw [dayCount_assignEmp_other_day st day shift e d e hd]
        exact hold
      · rw [dayCount_assignEmp_other_emp st day shift emp d e he]
        exact hold
  · intro d e hF
    rw [assignEmp_assigned] at hF
    by_cases hc : d = day ∧ e = emp
    · rw [if_pos hc] at hF
      cases hF
    · rw [if_neg hc] at hF
      have hold := hInv.assignF d e hF
      by_cases he : e = emp
      · subst he
        have hd : d ≠ day := fun hdd => hc ⟨hdd, rfl⟩
        rw [dayCount_assignEmp_other_day st day shift e d e hd]
        exact hold
      · rw [dayCount_assignEmp_other_emp st day shift emp d e he]
        exact hold
  · intro e
    rw [assignEmp_daysWorked]
    by_cases he : e = emp
    · subst he
      rw [if_pos rfl, weekCount_assignEmp_self st day shift e hday hshift,
        hInv.worked e]
      push_cast
      ring
    · rw [if_neg he, weekCount_assignEmp_other st day shift emp e he]
      exact hInv.worked e
  · intro hmd e
    rw [assignEmp_daysWorked]
    by_cases he : e = emp
    · subst he
      rw [if_pos rfl]
      omega
    · rw [if_neg he]
      exact hInv.workedLe hmd e

/-- Helper: fold preservation of a state property. -/
theorem foldl_pres {α : Type} (P : SchedSt → Prop) (f : SchedSt → α → SchedSt)
    (l : List α) (h : ∀ st a, a ∈ l → P st → P (f st a)) :
    ∀ st, P st → P (l.foldl f st) := by
  induction l with
  | nil => intro st hst; exact hst
  | cons a t ih =>
    intro st hst
    exact ih (fun st' b hb => h st' b (List.mem_cons_of_mem _ hb)) _ (h st a (by simp) hst)

/-- Helper: a true `Bool` that is not `true` is `false`. -/
theorem bool_not_true {b : Bool} (h : ¬ b = true) : b = false := by
  cases b
  · rfl
  · exact absurd rfl h

/-- Helper: `contains` on a string list means membership. -/
theorem contains_mem {l : List String} {s : String} (h : l.contains s = true) : s ∈ l := by
  simpa using h

/-- Helper: what a true `shift_has_capacity` guarantees. -/
theorem shiftCap_spec {cfg : Config} {st : SchedSt} {day shift : String}
    (h : shiftCap cfg st day shift = true) :
    0 < cfg.max_per_shift → ((st.sched day shift).length : Int) < cfg.max_per_shift := by
  intro hpos
  unfold shiftCap at h
  rcases Bool.or_eq_true _ _ |>.mp h with h | h
  · have := of_decide_eq_true h
    omega
  · exact of_decide_eq_true h

/-- Helper: every label of a normalized preference list is a real shift. -/
theorem normalizePrefs_mem_shifts (raw : RawPrefs) :
    ∀ e d s, s ∈ normalizePrefs raw e d → s ∈ SHIFTS := by
  intro e d s hs
  unfold normalizePrefs at hs
  cases hl : raw.lookup e with
  | none =>
    rw [hl] at hs
    exact absurd hs (List.not_mem_nil s)
  | some perDay =>
    rw [hl] at hs
    have hs' : s ∈ normEntry (perDay.lookup d) := hs
    clear hs
    cases hv : perDay.lookup d with
    | none => rw [hv] at hs'; simp [normEntry] at hs'
    | some v =>
      rw [hv] at hs'
      cases v with
      | one s0 =>
        simp only [normEntry] at hs'
        cases hc : cleanLabel s0 with
        | none => rw [hc] at hs'; simp at hs'
        | some t =>
          rw [hc] at hs'
          simp only [List.mem_singleton] at hs'
          subst hs'
          exact contains_mem (cleanLabel_valid hc)
      | many ss =>
        simp only [normEntry, List.mem_filterMap] at hs'
        obtain ⟨s1, _, hc⟩ := hs'
        exact contains_mem (cleanLabel_valid hc)

/-- Helper: indexing `DAYS` within bounds lands in `DAYS`. -/
theorem days_getD_mem : ∀ di, di < DAYS.length → DAYS.getD di "" ∈ DAYS := by decide

/-- One step of the preference-rank pass preserves the invariant: every
assignment it makes passes the code's own guards. -/
theorem rankStep_inv (cfg : Config) (prefs : Prefs) (day : String) (hday : day ∈ DAYS)
    (rank : Nat) (st : SchedSt) (emp : String) (hInv : SInv cfg st) :
    SInv cfg (rankStep cfg prefs day rank st emp) := by
  simp only [rankStep]
  split_ifs with h1 h2 h3 h4 h5
  · exact hInv
  · exact hInv
  · exact assignEmp_inv day _ emp hInv hday (contains_mem h4)
      (bool_not_true h1) (by omega) (shiftCap_spec h5)
  · exact hInv
  · exact hInv
  · exact hInv

/-- One step of the fallback pass preserves the invariant. -/
theorem fallbackStep_inv (cfg : Config) (prefs : Prefs)
    (hpref : ∀ e d s, s ∈ prefs e d → s ∈ SHIFTS)
    (di : Nat) (hdi : di < DAYS.length) (st : SchedSt) (emp : String)
    (hInv : SInv cfg st) :
    SInv cfg (fallbackStep cfg prefs di st emp) := by
  have hplace : ∀ s : String,
      (prefs emp (DAYS.getD di "") ++
        SHIFTS.filter (fun x => !(prefs emp (DAYS.getD di "")).contains x)).find?
          (fun x => shiftCap cfg st (DAYS.getD di "") x) = some s →
      ¬ st.assigned (DAYS.getD di "") emp = true →
      ¬ cfg.max_days_per_employee ≤ st.daysWorked emp →
      SInv cfg (st.assignEmp (DAYS.getD di "") s emp) := by
    intro s hf h1 h2
    have hmem : s ∈ prefs emp (DAYS.getD di "") ++
        SHIFTS.filter (fun x => !(prefs emp (DAYS.getD di "")).contains x) :=
      List.mem_of_find?_eq_some hf
    have hshift : s ∈ SHIFTS := by
      rcases List.mem_append.mp hmem with hm | hm
      · exact hpref emp _ s hm
      · exact List.mem_of_mem_filter hm
    exact assignEmp_inv _ s emp hInv (days_getD_mem di hdi) hshift
      (bool_not_true h1) (by omega)
      (shiftCap_spec (List.find?_some hf))
  simp only [fallbackStep]
  split_ifs with h1 h2 h3 h4
  · exact hInv
  · exact hInv
  · exact hInv
  · cases hf : (prefs emp (DAYS.getD di "") ++
        SHIFTS.filter (fun x => !(prefs emp (DAYS.getD di "")).contains x)).find?
        (fun x => shiftCap cfg st (DAYS.getD di "") x) with
    | none =>
      simp only [hf]
      exact ⟨hInv.cap, hInv.assignT, hInv.assignF, hInv.worked, hInv.workedLe⟩
    | some s =>
      simp only [hf]
      exact hplace s hf h1 h2
  · cases hf : (prefs emp (DAYS.getD di "") ++
        SHIFTS.filter (fun x => !(prefs emp (DAYS.getD di "")).contains x)).find?
        (fun x => shiftCap cfg st (DAYS.getD di "") x) with
    | none =>
      simp only [hf]
      exact hInv
    | some s =>
      simp only [hf]
      exact hplace s hf h1 h2

/-- One full day of the greedy phase preserves the invariant. -/
theorem dayPass_inv (cfg : Config) (prefs : Prefs)
    (hpref : ∀ e d s, s ∈ prefs e d → s ∈ SHIFTS)
    (employees : List String) (st : SchedSt) (di : Nat) (hdi : di < DAYS.length)
    (hInv : SInv cfg st) :
    SInv cfg (dayPass cfg prefs employees st di) := by
  simp only [dayPass]
  refine foldl_pres (SInv cfg) _ _
    (fun st' e _ hi => fallbackStep_inv cfg prefs hpref di hdi st' e hi) _ ?_
  refine foldl_pres (SInv cfg) _ _ (fun st' rank _ hi => ?_) _ hInv
  exact foldl_pres (SInv cfg) _ _
    (fun st'' e _ hi' => rankStep_inv cfg prefs _ (days_getD_mem di hdi) rank st'' e hi') _ hi

/-- The whole Mon→Sun greedy loop preserves the invariant. -/
theorem daysLoop_inv (cfg : Config) (prefs : Prefs)
    (hpref : ∀ e d s, s ∈ prefs e d → s ∈ SHIFTS)
    (employees : List String) (st : SchedSt) (hInv : SInv cfg st) :
    SInv cfg (daysLoop cfg prefs employees st) := by
  unfold daysLoop
  exact foldl_pres (SInv cfg) _ _
    (fun st' di hdi hi =>
      dayPass_inv cfg prefs hpref employees st' di (List.mem_range.mp hdi) hi) _ hInv

/-- Helper: pulling the `j`-th element to the front permutes a list. -/
theorem getD_cons_eraseIdx_perm : ∀ (l : List String) (j : Nat), j < l.length →
    (l.getD j "" :: l.eraseIdx j).Perm l := by
  intro l
  induction l with
  | nil => intro j hj; simp at hj
  | cons a t ih =>
    intro j hj
    cases j with
    | zero => simp
    | succ j =>
      have hj' : j < t.length := by simpa using hj
      simp only [List.getD_cons_succ, List.eraseIdx_cons_succ]
      exact (List.Perm.swap a (t.getD j "") (t.eraseIdx j)).trans ((ih j hj').cons a)

/-- Helper: the selection shuffle permutes its input. -/
theorem shuffleGo_perm : ∀ (fuel : Nat) (xs : List String) (g : MTState),
    xs.length ≤ fuel + 1 → (shuffleGo fuel xs g).1.Perm xs := by
  intro fuel
  induction fuel with
  | zero =>
    intro xs g hlen
    match xs with
    | [] => exact List.Perm.refl _
    | [x] => exact List.Perm.refl _
    | x0 :: x1 :: rest => simp at hlen
  | succ fuel ih =>
    intro xs g hlen
    match xs with
    | [] => exact List.Perm.refl _
    | [x] => exact List.Perm.refl _
    | x0 :: x1 :: rest =>
      simp only [shuffleGo]
      have hjlt : (boundedNext (x0 :: x1 :: rest).length g).1 < (x0 :: x1 :: rest).length := by
        unfold boundedNext
        exact Nat.mod_lt _ (by simp)
      have herase : ((x0 :: x1 :: rest).eraseIdx
          (boundedNext (x0 :: x1 :: rest).length g).1).length ≤ fuel + 1 := by
        rw [List.length_eraseIdx, if_pos hjlt]
        simp only [List.length_cons] at hlen ⊢
        omega
      exact ((ih _ _ herase).cons _).trans
        (getD_cons_eraseIdx_perm (x0 :: x1 :: rest) _ hjlt)

/-- Helper: `shuffleList` output is a permutation of its input. -/
theorem shuffleList_perm (xs : List String) (g : MTState) :
    (shuffleList xs g).1.Perm xs :=
  shuffleGo_perm xs.length xs g (by omega)

/-- The backfill addition loop preserves the invariant as long as the
remaining candidates are duplicate-free, unassigned that day and under
the weekly cap — exactly what the candidate filter guaranteed. -/
theorem backfillAdd_inv (cfg : Config) (day shift : String)
    (hday : day ∈ DAYS) (hshift : shift ∈ SHIFTS) (need : Int) :
    ∀ (l : List String) (added : Nat) (st : SchedSt), SInv cfg st → l.Nodup →
    (∀ e ∈ l, st.assigned day e = false ∧
      st.daysWorked e < cfg.max_days_per_employee) →
    SInv cfg (backfillAdd cfg day shift need l added st) := by
  intro l
  induction l with
  | nil =>
    intro added st hInv _ _
    exact hInv
  | cons emp rest ih =>
    intro added st hInv hnd hprops
    simp only [backfillAdd]
    split_ifs with h1 h2
    · exact hInv
    · exact assignEmp_inv day shift emp hInv hday hshift
        (hprops emp (by simp)).1 (hprops emp (by simp)).2 (fun hpos => by omega)
    · obtain ⟨hnae, hwke⟩ := hprops emp (by simp)
      have hst' := assignEmp_inv day shift emp hInv hday hshift hnae hwke
        (fun hpos => by omega)
      refine ih (added + 1) _ hst' (List.nodup_cons.mp hnd).2 ?_
      intro e he
      have hne : e ≠ emp := fun hee =>
        (List.nodup_cons.mp hnd).1 (by rw [← hee]; exact he)
      obtain ⟨ha, hw⟩ := hprops e (List.mem_cons_of_mem _ he)
      constructor
      · rw [assignEmp_assigned, if_neg (fun hc => hne hc.2)]
        exact ha
      · rw [assignEmp_daysWorked, if_neg hne]
        exact hw

/-- The backfill of one slot preserves the invariant. -/
theorem backfillSlot_inv (cfg : Config) (employees : List String)
    (hnd : employees.Nodup) (st : SchedSt) (day shift : String)
    (hday : day ∈ DAYS) (hshift : shift ∈ SHIFTS) (hInv : SInv cfg st) :
    SInv cfg (backfillSlot cfg employees st day shift) := by
  simp only [backfillSlot]
  split_ifs with h1 h2
  · exact hInv
  all_goals {
    refine ?_
    have hperm := shuffleList_perm (employees.filter (fun e =>
      !(st.assigned day e) && decide (st.daysWorked e < cfg.max_days_per_employee))) st.rng
    have hshnd : (shuffleList (employees.filter (fun e =>
        !(st.assigned day e) && decide (st.daysWorked e < cfg.max_days_per_employee)))
        st.rng).1.Nodup :=
      hperm.nodup_iff.mpr (List.Nodup.filter _ hnd)
    have hst1 : SInv cfg { st with rng := (shuffleList (employees.filter (fun e =>
        !(st.assigned day e) && decide (st.daysWorked e < cfg.max_days_per_employee)))
        st.rng).2 } :=
      ⟨hInv.cap, hInv.assignT, hInv.assignF, hInv.worked, hInv.workedLe⟩
    have hst2 := backfillAdd_inv cfg day shift hday hshift
      (cfg.min_per_shift - ((st.sched day shift).length : Int)) _ 0 _ hst1 hshnd ?_
    · exact ⟨hst2.cap, hst2.assignT, hst2.assignF, hst2.worked, hst2.workedLe⟩
    · intro e he
      have hec := hperm.mem_iff.mp he
      obtain ⟨_, hpred⟩ := List.mem_filter.mp hec
      obtain ⟨hb1, hb2⟩ := Bool.and_eq_true _ _ |>.mp hpred
      exact ⟨by simpa using hb1, of_decide_eq_true hb2⟩
  }

/-- The whole backfill pass preserves the invariant. -/
theorem backfillPass_inv (cfg : Config) (employees : List String)
    (hnd : employees.Nodup) (st : SchedSt) (hInv : SInv cfg st) :
    SInv cfg (backfillPass cfg employees st) := by
  unfold backfillPass
  have hsp : ∀ p : String × String, p ∈ slotPairs → p.1 ∈ DAYS ∧ p.2 ∈ SHIFTS := by decide
  exact foldl_pres (SInv cfg) _ _ (fun st' p hp hi =>
    backfillSlot_inv cfg employees hnd st' p.1 p.2 (hsp p hp).1 (hsp p hp).2 hi) _ hInv

/-- The `while (size > max)` loop never runs on a slot already within
the cap. -/
theorem enforceSlot_id (cfg : Config) (day shift : String) (fuel : Nat) (st : SchedSt)
    (hcap : ((st.sched day shift).length : Int) ≤ cfg.max_per_shift) :
    enforceSlot cfg day shift fuel st = st := by
  cases fuel with
  | zero => rfl
  | succ fuel =>
    simp only [enforceSlot]
    rw [if_neg (by omega)]

/-- Helper: a fold whose step fixes the state is the identity. -/
theorem foldl_fix {α : Type} (f : SchedSt → α → SchedSt) (l : List α) (st : SchedSt)
    (h : ∀ p ∈ l, f st p = st) : l.foldl f st = st := by
  induction l with
  | nil => rfl
  | cons a t ih =>
    rw [List.foldl_cons, h a (by simp)]
    exact ih (fun p hp => h p (List.mem_cons_of_mem _ hp))

/-- Under the invariant every slot already respects the cap, so the
max-capacity enforcement pass (lines 270–325 of scheduler.cpp) does
nothing: every push in the earlier passes was capacity-guarded. -/
theorem enforcePass_id (cfg : Config) (st : SchedSt) (hInv : SInv cfg st) :
    enforcePass cfg st = st := by
  unfold enforcePass
  split_ifs with hpos
  · refine foldl_fix _ _ _ ?_
    intro p _
    exact enforceSlot_id cfg p.1 p.2 _ st (hInv.cap p.1 p.2 hpos)
  · rfl

/-- Helper: the cleaning loop emits no name in `seen` and no duplicates. -/
theorem ucGo_spec : ∀ (l seen : List String),
    (∀ x ∈ ucGo l seen, seen.contains x = false) ∧ (ucGo l seen).Nodup := by
  intro l
  induction l with
  | nil =>
    intro seen
    exact ⟨fun x hx => absurd hx (List.not_mem_nil x), List.nodup_nil⟩
  | cons n rest ih =>
    intro seen
    simp only [ucGo]
    split_ifs with h1 h2
    · exact ih seen
    · exact ih seen
    · constructor
      · intro x hx
        rcases List.mem_cons.mp hx with hx | hx
        · subst hx
          exact bool_not_true h2
        · have h3 := (ih (trim n :: seen)).1 x hx
          simp only [List.contains_cons, Bool.or_eq_false_iff] at h3
          exact h3.2
      · refine List.nodup_cons.mpr ⟨?_, (ih (trim n :: seen)).2⟩
        intro hmem
        have h3 := (ih (trim n :: seen)).1 (trim n) hmem
        simp [List.contains_cons] at h3

/-- Helper: `unique_cleaned` output has no duplicates. -/
theorem uniqueCleaned_nodup (names : List String) : (uniqueCleaned names).Nodup :=
  (ucGo_spec names []).2

/-- A normally-returning run is the three-pass pipeline on the cleaned
employee list. -/
theorem scheduleEmployees_ok_eq (employees : List String) (raw : RawPrefs) (cfg : Config)
    (hok : (scheduleEmployees employees raw cfg).isOk = true) :
    uniqueCleaned employees ≠ []
    ∧ feasibleCheck (uniqueCleaned employees) cfg = none
    ∧ schedOf employees raw cfg = (enforcePass cfg (backfillPass cfg (uniqueCleaned employees)
        (daysLoop cfg (normalizePrefs raw) (uniqueCleaned employees)
          ⟨fun _ _ => [], fun _ _ => false, fun _ => 0, [], fun _ => [],
            mtInit cfg.random_seed⟩))).sched
    ∧ warnsOf employees raw cfg = (enforcePass cfg (backfillPass cfg (uniqueCleaned employees)
        (daysLoop cfg (normalizePrefs raw) (uniqueCleaned employees)
          ⟨fun _ _ => [], fun _ _ => false, fun _ => 0, [], fun _ => [],
            mtInit cfg.random_seed⟩))).warns := by
  by_cases h1 : uniqueCleaned employees = []
  · exfalso
    simp only [scheduleEmployees] at hok
    rw [if_pos h1] at hok
    simp [Except.isOk, Except.toBool] at hok
  · cases h2 : feasibleCheck (uniqueCleaned employees) cfg with
    | some e =>
      exfalso
      simp only [scheduleEmployees] at hok
      rw [if_neg h1, h2] at hok
      simp [Except.isOk, Except.toBool] at hok
    | none =>
      have hres : scheduleEmployees employees raw cfg = .ok
          ((enforcePass cfg (backfillPass cfg (uniqueCleaned employees)
            (daysLoop cfg (normalizePrefs raw) (uniqueCleaned employees)
              ⟨fun _ _ => [], fun _ _ => false, fun _ => 0, [], fun _ => [],
                mtInit cfg.random_seed⟩))).sched,
           (enforcePass cfg (backfillPass cfg (uniqueCleaned employees)
            (daysLoop cfg (normalizePrefs raw) (uniqueCleaned employees)
              ⟨fun _ _ => [], fun _ _ => false, fun _ => 0, [], fun _ => [],
                mtInit cfg.random_seed⟩))).warns) := by
        simp only [scheduleEmployees]
        rw [if_neg h1, h2]
      exact ⟨h1, rfl, by unfold schedOf; rw [hres], by unfold warnsOf; rw [hres]⟩

/-- The invariant holds for the initial empty state. -/
theorem sInv_init (cfg : Config) :
    SInv cfg ⟨fun _ _ => [], fun _ _ => false, fun _ => 0, [], fun _ => [],
      mtInit cfg.random_seed⟩ := by
  refine ⟨?_, ?_, ?_, ?_, ?_⟩
  · intro d s hpos
    simp only [List.length_nil, Nat.cast_zero]
    omega
  · intro d e h
    cases h
  · intro d e _
    simp [dayCount]
  · intro e
    simp [weekCount, dayCount]
  · intro hmd e
    simpa using hmd

set_option maxRecDepth 40000 in
/-- Claim C1, counterexample: with the degenerate config
`max_days_per_employee = -1` (and `min_per_shift = -1`, which makes the
feasibility check pass) the call returns normally, yet an employee with
zero assigned slots violates the claimed bound `total ≤ max_days_per_employee`. -/
theorem sched_invariants_cex :
    (scheduleEmployees ["A"] []
      { min_per_shift := -1, max_days_per_employee := -1 }).isOk = true
    ∧ ¬ ((weekCount (schedOf ["A"] []
          { min_per_shift := -1, max_days_per_employee := -1 }) "A" : Int)
        ≤ ({ min_per_shift := -1, max_days_per_employee := -1 } : Config).max_days_per_employee) := by
  constructor
  · rfl
  · decide

/-- Claim C1, amended: on every normally-returning run, each employee
appears in at most one shift per day, and — provided the configured
`max_days_per_employee` is non-negative, which excludes only degenerate
configs — each employee occupies at most `max_days_per_employee` slots
across the week.  No "unrelocatable overflow" exception is needed:
every insertion the scheduler performs is capacity-guarded, so the
enforcement pass never actually removes anyone. -/
theorem sched_assignment_invariants (employees : List String) (raw : RawPrefs)
    (cfg : Config) (hok : (scheduleEmployees employees raw cfg).isOk = true) :
    ∀ emp : String,
      (∀ day ∈ DAYS, dayCount (schedOf employees raw cfg) day emp ≤ 1)
      ∧ (0 ≤ cfg.max_days_per_employee →
          (weekCount (schedOf employees raw cfg) emp : Int) ≤ cfg.max_days_per_employee) := by
  obtain ⟨h1, h2, hsched, _⟩ := scheduleEmployees_ok_eq employees raw cfg hok
  have hInv1 := daysLoop_inv cfg (normalizePrefs raw) (normalizePrefs_mem_shifts raw)
    (uniqueCleaned employees) _ (sInv_init cfg)
  have hInv2 := backfillPass_inv cfg (uniqueCleaned employees)
    (uniqueCleaned_nodup employees) _ hInv1
  have hEnf := enforcePass_id cfg _ hInv2
  rw [hsched, hEnf]
  intro emp
  constructor
  · intro day _
    rcases Bool.eq_false_or_eq_true ((backfillPass cfg (uniqueCleaned employees)
        (daysLoop cfg (normalizePrefs raw) (uniqueCleaned employees)
          ⟨fun _ _ => [], fun _ _ => false, fun _ => 0, [], fun _ => [],
            mtInit cfg.random_seed⟩)).assigned day emp) with hb | hb
    · rw [hInv2.assignT day emp hb]
    · rw [hInv2.assignF day emp hb]
      omega
  · intro hmd
    have hw := hInv2.worked emp
    have hl := hInv2.workedLe hmd emp
    omega

/-- A feasible single-employee config used by the scheduler witnesses:
one employee may work all 21 slots, so `required = 21 ≤ supply = 21`. -/
def exampleCfg : Config := { min_per_shift := 1, max_days_per_employee := 21 }

set_option maxRecDepth 200000 in
/-- Claim C1 witness: the invariants at a concrete normally-returning
run (one employee, `min_per_shift = 1`, `max_days_per_employee = 21`). -/
theorem sched_assignment_invariants_witness :
    (∀ day ∈ DAYS, dayCount (schedOf ["A"] [] exampleCfg) day "A" ≤ 1)
    ∧ (0 ≤ exampleCfg.max_days_per_employee →
        (weekCount (schedOf ["A"] [] exampleCfg) "A" : Int)
          ≤ exampleCfg.max_days_per_employee) :=
  sched_assignment_invariants ["A"] [] exampleCfg (by decide) "A"

/-- Frame: the backfill addition loop never touches the warnings. -/
theorem backfillAdd_warns (cfg : Config) (day shift : String) (need : Int) :
    ∀ (l : List String) (added : Nat) (st : SchedSt),
    (backfillAdd cfg day shift need l added st).warns = st.warns := by
  intro l
  induction l with
  | nil => intro added st; rfl
  | cons emp rest ih =>
    intro added st
    simp only [backfillAdd]
    split_ifs with h1 h2
    · rfl
    · rfl
    · rw [ih]
      rfl

/-- Frame: the backfill addition loop only modifies its own slot. -/
theorem backfillAdd_sched_frame (cfg : Config) (day shift : String) (need : Int) :
    ∀ (l : List String) (added : Nat) (st : SchedSt) (d s : String),
    ¬ (d = day ∧ s = shift) →
    (backfillAdd cfg day shift need l added st).sched d s = st.sched d s := by
  intro l
  induction l with
  | nil => intro added st d s _; rfl
  | cons emp rest ih =>
    intro added st d s h
    simp only [backfillAdd]
    split_ifs with h1 h2
    · rfl
    · exact assignEmp_sched_other st day shift emp d s h
    · rw [ih _ _ d s h]
      exact assignEmp_sched_other st day shift emp d s h

/-- Warnings only grow across a slot's backfill. -/
theorem backfillSlot_warns_mono (cfg : Config) (employees : List String)
    (st : SchedSt) (day shift : String) :
    ∀ w ∈ st.warns, w ∈ (backfillSlot cfg employees st day shift).warns := by
  intro w hw
  simp only [backfillSlot]
  split_ifs with h1 h2
  · exact hw
  · rw [backfillAdd_warns]
    exact List.mem_append_left _ hw
  · rw [backfillAdd_warns]
    exact hw

/-- Frame: a slot's backfill modifies no other slot. -/
theorem backfillSlot_sched_frame (cfg : Config) (employees : List String)
    (st : SchedSt) (day shift d s : String) (h : ¬ (d = day ∧ s = shift)) :
    (backfillSlot cfg employees st day shift).sched d s = st.sched d s := by
  simp only [backfillSlot]
  split_ifs with h1 h2
  · rfl
  · exact backfillAdd_sched_frame cfg day shift _ _ _ _ d s h
  · exact backfillAdd_sched_frame cfg day shift _ _ _ _ d s h

/-- After its own backfill, a slot still below `min_per_shift` carries
the matching warning (with the slot's final count). -/
theorem backfillSlot_post (cfg : Config) (employees : List String)
    (st : SchedSt) (day shift : String) :
    (((backfillSlot cfg employees st day shift).sched day shift).length : Int)
        < cfg.min_per_shift →
    minWarning day shift
        ((backfillSlot cfg employees st day shift).sched day shift).length
        cfg.min_per_shift
      ∈ (backfillSlot cfg employees st day shift).warns := by
  simp only [backfillSlot]
  split_ifs with h1 h2
  · intro hlt
    omega
  · intro _
    refine List.mem_append_right _ ?_
    simp
  · intro hlt
    omega

/-- Warnings only grow across a fold of slot backfills. -/
theorem foldb_warns_mono (cfg : Config) (employees : List String) :
    ∀ (L : List (String × String)) (st : SchedSt) (w : String), w ∈ st.warns →
    w ∈ (L.foldl (fun s q => backfillSlot cfg employees s q.1 q.2) st).warns := by
  intro L
  induction L with
  | nil => intro st w hw; exact hw
  | cons q L' ih =>
    intro st w hw
    exact ih _ w (backfillSlot_warns_mono cfg employees st q.1 q.2 w hw)

/-- Frame: a fold of slot backfills over other slots leaves a slot alone. -/
theorem foldb_sched_frame (cfg : Config) (employees : List String) :
    ∀ (L : List (String × String)) (st : SchedSt) (d s : String),
    (∀ p ∈ L, ¬ (d = p.1 ∧ s = p.2)) →
    (L.foldl (fun st' q => backfillSlot cfg employees st' q.1 q.2) st).sched d s
      = st.sched d s := by
  intro L
  induction L with
  | nil => intro st d s _; rfl
  | cons q L' ih =>
    intro st d s h
    rw [List.foldl_cons, ih _ d s (fun p hp => h p (List.mem_cons_of_mem _ hp))]
    exact backfillSlot_sched_frame cfg employees st q.1 q.2 d s (h q (by simp))

/-- Over a duplicate-free slot list, every slot that ends below
`min_per_shift` has its warning in the final warning list. -/
theorem backfill_fold_warn (cfg : Config) (employees : List String) :
    ∀ (L : List (String × String)), L.Nodup →
    ∀ (st : SchedSt), ∀ p ∈ L,
    (((L.foldl (fun s q => backfillSlot cfg employees s q.1 q.2) st).sched p.1 p.2).length : Int)
        < cfg.min_per_shift →
    minWarning p.1 p.2
        ((L.foldl (fun s q => backfillSlot cfg employees s q.1 q.2) st).sched p.1 p.2).length
        cfg.min_per_shift
      ∈ (L.foldl (fun s q => backfillSlot cfg employees s q.1 q.2) st).warns := by
  intro L
  induction L with
  | nil =>
    intro _ st p hp
    simp at hp
  | cons q0 L' ih =>
    intro hnd st p hp
    simp only [List.foldl_cons]
    rcases List.mem_cons.mp hp with hpq | hp'
    · subst hpq
      have hfr : ((L'.foldl (fun s q => backfillSlot cfg employees s q.1 q.2)
            (backfillSlot cfg employees st p.1 p.2)).sched p.1 p.2)
          = (backfillSlot cfg employees st p.1 p.2).sched p.1 p.2 := by
        refine foldb_sched_frame cfg employees L' _ p.1 p.2 ?_
        intro r hr hc
        have hpr : p = r := Prod.ext hc.1 hc.2
        exact (List.nodup_cons.mp hnd).1 (by rw [hpr]; exact hr)
      intro hlt
      rw [hfr] at hlt ⊢
      exact foldb_warns_mono cfg employees L' _ _
        (backfillSlot_post cfg employees st p.1 p.2 hlt)
    · exact ih (List.nodup_cons.mp hnd).2 _ p hp'

/-- Claim C4, counterexample: the claim's concrete instance never gets a
schedule at all — with employees `A,B,C,D` and the default config the
call raises Infeasible (supply `4·5 = 20` is below the required
`7·3·2 = 42`) instead of returning 21 staffed-or-warned slots. -/
theorem sched_min_staffing_cex :
    scheduleEmployees ["A", "B", "C", "D"] [] {} = Except.error (.runtimeErr
      ("Infeasible: need at least 42 total shift assignments, but employee supply " ++
       "caps at 20. Consider adding ~5 more employees or increasing max_days_per_employee."))
    ∧ ((uniqueCleaned ["A", "B", "C", "D"]).length : Int)
        * ({} : Config).max_days_per_employee < 7 * 3 * ({} : Config).min_per_shift := by
  constructor
  · rfl
  · decide

/-- Claim C4, amended: on every normally-returning run, every
`(day, shift)` slot whose final list is below `min_per_shift` is
accompanied by the warning string naming that day, that shift, and the
actual/required counts.  The claim's concrete four-employee default
instance, however, is infeasible and raises instead of returning. -/
theorem sched_min_staffing_warnings (employees : List String) (raw : RawPrefs)
    (cfg : Config) (hok : (scheduleEmployees employees raw cfg).isOk = true) :
    ∀ day ∈ DAYS, ∀ shift ∈ SHIFTS,
      (((schedOf employees raw cfg) day shift).length : Int) < cfg.min_per_shift →
      minWarning day shift ((schedOf employees raw cfg) day shift).length cfg.min_per_shift
        ∈ warnsOf employees raw cfg := by
  obtain ⟨h1, h2, hsched, hwarns⟩ := scheduleEmployees_ok_eq employees raw cfg hok
  have hInv1 := daysLoop_inv cfg (normalizePrefs raw) (normalizePrefs_mem_shifts raw)
    (uniqueCleaned employees) _ (sInv_init cfg)
  have hInv2 := backfillPass_inv cfg (uniqueCleaned employees)
    (uniqueCleaned_nodup employees) _ hInv1
  have hEnf := enforcePass_id cfg _ hInv2
  rw [hsched, hwarns, hEnf]
  intro day hday shift hshift
  have hp : (day, shift) ∈ slotPairs := by
    unfold slotPairs
    exact List.pair_mem_product.mpr ⟨hday, hshift⟩
  have hnodup : slotPairs.Nodup := by decide
  have := backfill_fold_warn cfg (uniqueCleaned employees) slotPairs hnodup
    (daysLoop cfg (normalizePrefs raw) (uniqueCleaned employees)
      ⟨fun _ _ => [], fun _ _ => false, fun _ => 0, [], fun _ => [],
        mtInit cfg.random_seed⟩) (day, shift) hp
  exact this

set_option maxRecDepth 400000 in
/-- Claim C4 witness: the warning property at a concrete run (one
employee, `min_per_shift = 1`) and a concrete under-staffed slot, Monday
afternoon. -/
theorem sched_min_staffing_warnings_witness :
    minWarning "Mon" "afternoon" ((schedOf ["A"] [] exampleCfg) "Mon" "afternoon").length
        exampleCfg.min_per_shift
      ∈ warnsOf ["A"] [] exampleCfg :=
  sched_min_staffing_warnings ["A"] [] exampleCfg (by decide)
    "Mon" (by decide) "afternoon" (by decide) (by decide)

end CoursePL
